import Mathlib

/-!
Verification development for the svg-box-generator core: a shallow embedding
of the MaxRects/BSSF bin packer (src/lib/packer.ts), the finger-joint panel
geometry generator, the hole-clearance enforcer, the part factory and the
pack-verify-retry orchestrator (src/lib/types.ts generator section).

Modelling conventions:
* JavaScript numbers are modelled as exact rationals.  All arithmetic in the
  source is +, −, ×, /, min, max and comparisons, which ℚ models exactly;
  the single exception is Math.hypot in enforceHoleClearances, whose result
  is irrational in general.  The Euclidean distance is therefore passed as an
  explicit function parameter; theorems either hold for every
  such function or instantiate it on inputs where it is never evaluated.
* SVG path-string fields (outerCutD, innerCutDs, scoreDs) are rendering-only
  output; no claim concerns them and they are elided from the Part record.
* The two unbounded while-loops (pack's per-sheet loop and the orchestrator's
  retry loop) are given explicit fuel.  pack's fuel is fixed at
  parts.length + 1, which is proven sufficient; the orchestrator returns a
  distinguished outOfFuel error when fuel runs out, so theorems conditioned
  on a normal (.ok) return are unaffected.
* JavaScript Math.round is round-half-up, ⌊x + 1/2⌋.
* The non-null assertion on allPartsByUid.get(uid)! is modelled by getD with
  a default part; in every reachable state the lookup succeeds.
-/

namespace SvgBox

set_option maxRecDepth 40000
set_option maxHeartbeats 2000000

/-- Numeric tolerance used throughout the packer (EPS = 1e-6 in the source). -/
def EPS : ℚ := 1 / 1000000

/-- JavaScript Math.round: round half toward positive infinity. -/
def jsRound (q : ℚ) : ℤ := ⌊q + 1 / 2⌋

/-- Panel type, one of the six kinds produced per job (src/lib/types.ts). -/
inductive PartType where
  | BASE | LID | FRONT | BACK | LEFT | RIGHT
deriving DecidableEq, Repr

/-- Edge name for the hinge-edge field (src/lib/types.ts). -/
inductive EdgeName where
  | HEAD | TAIL | FORE | SPINE
deriving DecidableEq, Repr

/-- Joint role of one edge: male (protruding) or female (recessed). -/
inductive JointRole where
  | male | female
deriving DecidableEq, Repr

/-- Global settings (src/lib/types.ts, interface Globals). -/
structure Globals where
  sheet_w : ℚ
  sheet_h : ℚ
  margin : ℚ
  part_gap : ℚ
  allow_rotation : Bool
  kerf : ℚ
  t : ℚ
deriving DecidableEq, Repr

/-- One book-case job (src/lib/types.ts, interface BookJob). -/
structure BookJob where
  id : String
  name : String
  H_ext : ℚ
  W_ext : ℚ
  D_ext : ℚ
  clear_side : ℚ
  clear_depth : ℚ
  h_visible : ℚ
  raise_gap : ℚ
  tab_w_rule : ℚ
  joint_clear : ℚ
  symmetric_ends : Bool
  hinge_edge : EdgeName
  tape_reserved_strip : ℚ
  tape_guide : Bool
  mag_count : ℚ
  mag_diam : ℚ
  mag_thick : ℚ
  mag_clear : ℚ
  mag_edge_offset : ℚ
deriving DecidableEq, Repr

/-- A 2D point (src/lib/types.ts, interface Point). -/
structure Point where
  x : ℚ
  y : ℚ
deriving DecidableEq, Repr

/-- An axis-aligned rectangle (src/lib/types.ts, interface Rect). -/
structure Rect where
  x : ℚ
  y : ℚ
  w : ℚ
  h : ℚ
deriving DecidableEq, Repr

/-- A circular hole, center plus radius. -/
structure Hole where
  cx : ℚ
  cy : ℚ
  r : ℚ
deriving DecidableEq, Repr

/-- Joint parameters of one panel edge (src/lib/types.ts, EdgeParams). -/
structure EdgeParams where
  teeth : Bool
  reserveStrip : Option ℚ := none
  role : JointRole
deriving DecidableEq, Repr

/-- An unplaced geometric part (src/lib/types.ts, interface Part).
The rendering-only SVG path strings are elided; see the module header. -/
structure Part where
  uid : String
  jobId : String
  bookName : String
  partType : PartType
  w : ℚ
  h : ℚ
  holes : List Hole
  contourPoints : List Point
  labelAt : Point
deriving DecidableEq, Repr

/-- A part with placement data (src/lib/types.ts, interface PlacedPart).
The source extends Part via interface inheritance / object spread; the
embedding nests the part record instead. -/
structure PlacedPart where
  part : Part
  sheetIndex : ℤ
  x : ℚ
  y : ℚ
  rotated : Bool
  bookColor : String
  bookIndex : ℤ
deriving DecidableEq, Repr

/-- A maximal free rectangle tracked by the packer (src/lib/packer.ts, FreeRect). -/
structure FreeRect where
  x : ℚ
  y : ℚ
  w : ℚ
  h : ℚ
deriving DecidableEq, Repr

/-- A scored candidate placement (src/lib/packer.ts, Candidate). -/
structure Candidate where
  score : ℚ
  rot : Bool
  x : ℚ
  y : ℚ
  w : ℚ
  h : ℚ
  rIndex : ℕ
deriving DecidableEq, Repr

/-- Overlap test between two rectangles with EPS slack (src/lib/packer.ts,
const overlap): rectangles closer than EPS to being disjoint count as
non-overlapping. -/
def overlap (a b : FreeRect) : Bool :=
  !(decide (a.x + a.w ≤ b.x + EPS) || decide (b.x + b.w ≤ a.x + EPS) ||
    decide (a.y + a.h ≤ b.y + EPS) || decide (b.y + b.h ≤ a.y + EPS))

/-- Containment test with EPS slack (src/lib/packer.ts, const contains). -/
def contains (a b : FreeRect) : Bool :=
  decide (a.x ≤ b.x + EPS) && decide (a.y ≤ b.y + EPS) &&
    decide (a.x + a.w ≥ b.x + b.w - EPS) && decide (a.y + a.h ≥ b.y + b.h - EPS)

/-- One orientation attempt inside chooseMaxRectsPosition (the tryFit
closure): the rectangle to fit is the part plus its surrounding gap, valid
when both padded dimensions fit within EPS, scored by Best Short Side Fit. -/
def tryFitCand (gap : ℚ) (i : ℕ) (fr : FreeRect) (pw ph : ℚ) (rot : Bool) :
    Option Candidate :=
  let fitW := pw + gap
  let fitH := ph + gap
  if fitW ≤ fr.w + EPS ∧ fitH ≤ fr.h + EPS then
    some ⟨min (fr.w - fitW) (fr.h - fitH), rot, fr.x, fr.y, pw, ph, i⟩
  else none

/-- Best-candidate update: replace only on strictly smaller score, so the
earliest candidate attaining the minimum is kept (the source's
if (!best || c.score < best.score) best = c). -/
def updateBest (best : Option Candidate) (c : Option Candidate) : Option Candidate :=
  match c with
  | none => best
  | some c =>
    match best with
    | none => some c
    | some b => if c.score < b.score then some c else some b

/-- Position chooser (src/lib/packer.ts, chooseMaxRectsPosition): for each
free rectangle in index order, try the unrotated then (if allowed) the
rotated orientation, keeping the lowest-scoring valid candidate. -/
def chooseMaxRectsPosition (part : Part) (free : List FreeRect)
    (allowRotation : Bool) (gap : ℚ) : Option Candidate :=
  free.enum.foldl
    (fun best p =>
      let b1 := updateBest best (tryFitCand gap p.1 p.2 part.w part.h false)
      if allowRotation then updateBest b1 (tryFitCand gap p.1 p.2 part.h part.w true)
      else b1)
    none

/-- Clipping of a free rectangle to the sheet (src/lib/packer.ts,
splitFreeRects, final map). -/
def clipRect (sheetW sheetH : ℚ) (r : FreeRect) : FreeRect :=
  ⟨max 0 r.x, max 0 r.y,
    max 0 (min sheetW (r.x + r.w) - max 0 r.x),
    max 0 (min sheetH (r.y + r.h) - max 0 r.y)⟩

/-- Per-rectangle body of splitFreeRects' loop: a free rectangle not
overlapping the used box (or overlapping it by an EPS sliver) is kept whole;
otherwise up to four residual rectangles around the intersection are emitted. -/
def splitOne (used fr : FreeRect) : List FreeRect :=
  if !(overlap fr used) then [fr]
  else
    let ix := max fr.x used.x
    let iy := max fr.y used.y
    let ix2 := min (fr.x + fr.w) (used.x + used.w)
    let iy2 := min (fr.y + fr.h) (used.y + used.h)
    if ix2 - ix ≤ EPS ∨ iy2 - iy ≤ EPS then [fr]
    else
      (if iy - fr.y > EPS then [⟨fr.x, fr.y, fr.w, iy - fr.y⟩] else []) ++
      (if fr.y + fr.h - iy2 > EPS then [⟨fr.x, iy2, fr.w, fr.y + fr.h - iy2⟩] else []) ++
      (if ix - fr.x > EPS then [⟨fr.x, iy, ix - fr.x, iy2 - iy⟩] else []) ++
      (if fr.x + fr.w - ix2 > EPS then [⟨ix2, iy, fr.x + fr.w - ix2, iy2 - iy⟩] else [])

/-- Subtraction of a used rectangle from every free rectangle
(src/lib/packer.ts, splitFreeRects), then clipping to the sheet and dropping
degenerate rectangles. -/
def splitFreeRects (free : List FreeRect) (used : FreeRect) (sheetW sheetH : ℚ) :
    List FreeRect :=
  ((free.flatMap (splitOne used)).map (clipRect sheetW sheetH)).filter
    (fun r => decide (r.w > EPS) && decide (r.h > EPS))

/-- Pruning of free rectangles contained (within EPS) in another list entry
(src/lib/packer.ts, pruneFreeRects); the inner loop runs over the full input
list, indices compared to skip self. -/
def pruneFreeRects (free : List FreeRect) : List FreeRect :=
  ((free.enum.filter
    (fun p => !(free.enum.any (fun q => decide (q.1 ≠ p.1) && contains q.2 p.2)))).map
    (fun p => p.2))

/-- A placement on one sheet before global coordinates are assigned
(src/lib/packer.ts, the placed array inside packSheet). -/
structure SheetPlacement where
  part : Part
  x : ℚ
  y : ℚ
  rotated : Bool
deriving DecidableEq, Repr

/-- The comparator of packSheet's sort: descending by max(h, w); the
JavaScript sort is stable, as is mergeSort. -/
def partSortLe (a b : Part) : Bool := decide (max b.h b.w ≤ max a.h a.w)

/-- Loop body of packSheet over the sorted parts: each part is either placed
at its chosen candidate (blocking out the part plus gap from the free set) or
deferred to the remaining list. -/
def packSheetGo (w h : ℚ) (allowRotation : Bool) (gap : ℚ) :
    List Part → List FreeRect → List SheetPlacement × List Part
  | [], _ => ([], [])
  | part :: rest, free =>
    match chooseMaxRectsPosition part free allowRotation gap with
    | none =>
      let pr := packSheetGo w h allowRotation gap rest free
      (pr.1, part :: pr.2)
    | some cand =>
      let partW := if cand.rot then part.h else part.w
      let partH := if cand.rot then part.w else part.h
      let blockRect : FreeRect := ⟨cand.x, cand.y, partW + gap, partH + gap⟩
      let free2 := pruneFreeRects (splitFreeRects free blockRect w h)
      let pr := packSheetGo w h allowRotation gap rest free2
      (⟨part, cand.x, cand.y, cand.rot⟩ :: pr.1, pr.2)

/-- Packing of one sheet (src/lib/packer.ts, packSheet): sort largest-first,
start from a single free rectangle covering the usable area. -/
def packSheet (partsIn : List Part) (w h : ℚ) (allowRotation : Bool) (gap : ℚ) :
    List SheetPlacement × List Part :=
  packSheetGo w h allowRotation gap (partsIn.mergeSort partSortLe) [⟨0, 0, w, h⟩]

/-- A part marked unplaceable (src/lib/packer.ts, pack: sheetIndex -1 sentinel). -/
def mkSentinel (p : Part) : PlacedPart := ⟨p, -1, 0, 0, false, "", -1⟩

/-- A placement shifted into sheet coordinates by the margin (src/lib/packer.ts,
pack's placed loop). -/
def mkPlacedOnSheet (margin : ℚ) (sheetIndex : ℤ) (pl : SheetPlacement) : PlacedPart :=
  ⟨pl.part, sheetIndex, pl.x + margin, pl.y + margin, pl.rotated, "", -1⟩

/-- Multi-sheet loop of pack: each iteration packs one sheet; when nothing was
placed the remainder is emitted with the -1 sentinel and the loop breaks.
Fuel only caps the iteration count; packGo_fuel_sufficient shows
parts.length + 1 is enough. -/
def packGo (g : Globals) : ℕ → List Part → ℤ → List PlacedPart
  | _, [], _ => []
  | 0, remaining, _ => remaining.map mkSentinel
  | fuel + 1, remaining, sheetIndex =>
    let pr := packSheet remaining (g.sheet_w - 2 * g.margin) (g.sheet_h - 2 * g.margin)
      g.allow_rotation g.part_gap
    if pr.1.isEmpty then pr.2.map mkSentinel
    else pr.1.map (mkPlacedOnSheet g.margin sheetIndex) ++ packGo g fuel pr.2 (sheetIndex + 1)

/-- Main packing entry point (src/lib/packer.ts, pack). -/
def pack (parts : List Part) (g : Globals) (startSheetIndex : ℤ) : List PlacedPart :=
  packGo g (parts.length + 1) parts startSheetIndex

/-- The axis along which one edge runs. -/
inductive Axis where
  | x | y
deriving DecidableEq, Repr

/-- Mutation p[axis] += d of the source, as a pure update. -/
def Point.setAdd (p : Point) (ax : Axis) (d : ℚ) : Point :=
  match ax with
  | .x => ⟨p.x + d, p.y⟩
  | .y => ⟨p.x, p.y + d⟩

/-- A contour point carrying its outward unit normal (the Point & {nx, ny}
elements pushed by addEdgePath). -/
structure CPoint where
  x : ℚ
  y : ℚ
  nx : ℚ
  ny : ℚ
deriving DecidableEq, Repr

/-- Segment count of one toothed edge (the n computed at the top of
addEdgePath, src/lib/types.ts): nominal count from rounding, a parity bump
driven by symmetric_ends, then a clamp to at least 1 — in that order. -/
def segmentCount (length t tab_w_rule : ℚ) (symmetric : Bool) : ℤ :=
  let tab_w_nom := max (4 * t) tab_w_rule
  let n0 := jsRound (length / tab_w_nom)
  let n1 :=
    if symmetric then (if Int.tmod n0 2 = 0 then n0 + 1 else n0)
    else (if Int.tmod n0 2 ≠ 0 then n0 + 1 else n0)
  if n1 < 1 then 1 else n1

/-- One segment of a toothed edge: either a flat pass-through point (p5) or
the four notch points (p1, p2, p4, p3) plus the two valley points (p1, p3).
Mirrors the body of addEdgePath's for-loop. -/
def edgeSegment (currentPos : Point) (ax : Axis) (direction : ℚ) (normal : Point)
    (tab_w len clearance toothDepth : ℚ) (role : JointRole) (reserveStrip : Option ℚ)
    (pads : Option (List Rect)) (i : ℕ) : List CPoint × List Point :=
  let start := (i : ℚ) * tab_w
  let end_ := ((i : ℚ) + 1) * tab_w
  let isTab := i % 2 = 0
  let cAdj : ℚ := if isTab ∧ role = .male then -clearance else clearance
  let p1 := currentPos.setAdd ax ((start + cAdj) * direction)
  let p2 : Point := ⟨p1.x + normal.x * toothDepth, p1.y + normal.y * toothDepth⟩
  let p3 := currentPos.setAdd ax ((end_ - cAdj) * direction)
  let p4 : Point := ⟨p3.x + normal.x * toothDepth, p3.y + normal.y * toothDepth⟩
  let p5 := currentPos.setAdd ax (end_ * direction)
  let isReserved : Bool :=
    (match reserveStrip with
     | none => false
     | some rs => decide (rs ≠ 0) && (decide (start < rs) || decide (len - end_ < rs))) ||
    (match pads with
     | none => false
     | some l => l.any (fun pad =>
         let padStart := match ax with | .x => pad.x | .y => pad.y
         let padEnd := match ax with | .x => pad.x + pad.w | .y => pad.y + pad.h
         decide (max start padStart < min end_ padEnd)))
  if isReserved = true ∨ (role = .female ∧ isTab) ∨ (role = .male ∧ ¬isTab) then
    ([⟨p5.x, p5.y, normal.x, normal.y⟩], [])
  else
    ([⟨p1.x, p1.y, normal.x, normal.y⟩, ⟨p2.x, p2.y, normal.x, normal.y⟩,
      ⟨p4.x, p4.y, normal.x, normal.y⟩, ⟨p3.x, p3.y, normal.x, normal.y⟩],
     [p1, p3])

/-- Edge-path builder (src/lib/types.ts, addEdgePath): returns the contour
points pushed for this edge, the valley points collected, and the carried
forward end position. -/
def addEdgePath (g : Globals) (job : BookJob) (edgeParams : EdgeParams)
    (pads : Option (List Rect)) (ax : Axis) (direction : ℚ) (normal : Point)
    (currentPos : Point) (length : ℚ) : List CPoint × List Point × Point :=
  if !edgeParams.teeth then
    ([⟨currentPos.x, currentPos.y, normal.x, normal.y⟩], [],
     currentPos.setAdd ax (length * direction))
  else
    let clearance := g.kerf / 2 + job.joint_clear
    let n := segmentCount length g.t job.tab_w_rule job.symmetric_ends
    let tab_w := length / (n : ℚ)
    let segs := (List.range n.toNat).map
      (edgeSegment currentPos ax direction normal tab_w length clearance g.t
        edgeParams.role edgeParams.reserveStrip pads)
    (⟨currentPos.x, currentPos.y, normal.x, normal.y⟩ :: segs.flatMap (fun s => s.1),
     segs.flatMap (fun s => s.2),
     currentPos.setAdd ax (length * direction))

/-- The four edge-parameter records of one panel. -/
structure EdgeSet where
  top : EdgeParams
  right : EdgeParams
  bottom : EdgeParams
  left : EdgeParams
deriving DecidableEq, Repr

/-- Optional per-panel features (src: the features argument; always {} in
mkParts). -/
structure PanelFeatures where
  holes : Option (List Hole) := none
  pads : Option (List Rect) := none
deriving DecidableEq, Repr

/-- Output of makeFingerJointedPanel.  SVG strings are elided; magnetHoles is
the extra field spread onto the base panel's geometry in mkParts. -/
structure PanelGeom where
  holes : List Hole
  width : ℚ
  height : ℚ
  labelCenter : Point
  valleyPts : List Point
  contourPoints : List Point
  magnetHoles : List Hole := []
deriving DecidableEq, Repr

/-- Minimum of a rational list (the source seeds with +infinity and folds; the
list is nonempty wherever this is used, so a dummy value for [] is safe). -/
def minList (l : List ℚ) : ℚ :=
  match l with
  | [] => 0
  | a :: r => r.foldl min a

/-- Maximum of a rational list (see minList). -/
def maxList (l : List ℚ) : ℚ :=
  match l with
  | [] => 0
  | a :: r => r.foldl max a

/-- Relief-hole radius (src/lib/types.ts, RELIEF_R = 0.035). -/
def RELIEF_R : ℚ := 35 / 1000

/-- Panel geometry generator (src/lib/types.ts, makeFingerJointedPanel):
four edge paths, kerf offset along each point's normal, normalization to the
bounding-box origin, and relief holes at the normalized valley points. -/
def makeFingerJointedPanel (outerW outerH : ℚ) (edges : EdgeSet)
    (features : PanelFeatures) (g : Globals) (job : BookJob) : PanelGeom :=
  let k := g.kerf / 2
  let start0 : Point :=
    ⟨if edges.left.teeth && edges.left.role == .male then g.t else 0,
     if edges.top.teeth && edges.top.role == .male then g.t else 0⟩
  let e1 := addEdgePath g job edges.top features.pads .x 1 ⟨0, -1⟩ start0 outerW
  let e2 := addEdgePath g job edges.right features.pads .y 1 ⟨1, 0⟩ e1.2.2 outerH
  let e3 := addEdgePath g job edges.bottom features.pads .x (-1) ⟨0, 1⟩ e2.2.2 outerW
  let e4 := addEdgePath g job edges.left features.pads .y (-1) ⟨-1, 0⟩ e3.2.2 outerH
  let contour := e1.1 ++ e2.1 ++ e3.1 ++ e4.1
  let valleyCollector := e1.2.1 ++ e2.2.1 ++ e3.2.1 ++ e4.2.1
  let kerfed := contour.map (fun p => Point.mk (p.x + k * p.nx) (p.y + k * p.ny))
  let minX := minList (kerfed.map (fun p => p.x))
  let minY := minList (kerfed.map (fun p => p.y))
  let maxX := maxList (kerfed.map (fun p => p.x))
  let maxY := maxList (kerfed.map (fun p => p.y))
  let width := maxX - minX
  let height := maxY - minY
  let normalizedPoints := kerfed.map (fun p => Point.mk (p.x - minX) (p.y - minY))
  let normalizedValleys := valleyCollector.map (fun v => Point.mk (v.x - minX) (v.y - minY))
  let reliefHoles := normalizedValleys.map (fun v => Hole.mk v.x v.y RELIEF_R)
  { holes := reliefHoles
    width := width
    height := height
    labelCenter := ⟨width / 2, height / 2⟩
    valleyPts := normalizedValleys
    contourPoints := normalizedPoints }

/-- Hole-clearance enforcer (src/lib/types.ts, enforceHoleClearances).
hypotDist models Math.hypot (see the module header): it receives the two
coordinate differences to the valley point. -/
def enforceHoleClearances (hypotDist : ℚ → ℚ → ℚ) (hole : Hole)
    (panelW panelH : ℚ) (valleys : List Point) (t : ℚ) : Hole :=
  let edgeMin := max (3 * t) (3 / 10)
  let valleyMin := max (2 * t) (1 / 4)
  let r := hole.r
  let dxEdge := min hole.cx (panelW - hole.cx)
  let dyEdge := min hole.cy (panelH - hole.cy)
  let edgeDist := min dxEdge dyEdge - r
  let push0 := edgeMin - edgeDist + 1 / 1000
  let cx1 :=
    if edgeDist < edgeMin ∧ dxEdge < dyEdge then
      (if hole.cx < panelW / 2 then hole.cx + push0 else hole.cx - push0)
    else hole.cx
  let cy1 :=
    if edgeDist < edgeMin ∧ ¬dxEdge < dyEdge then
      (if hole.cy < panelH / 2 then hole.cy + push0 else hole.cy - push0)
    else hole.cy
  let nearest := valleys.foldl
    (fun acc v =>
      let d := hypotDist (cx1 - v.x) (cy1 - v.y)
      match acc with
      | none => some (d, v)
      | some mb => if d < mb.1 then some (d, v) else some mb)
    none
  let c2 : ℚ × ℚ :=
    match nearest with
    | none => (cx1, cy1)
    | some mb =>
      if mb.1 - r < valleyMin then
        let push := valleyMin - (mb.1 - r) + 1 / 1000
        let d := if mb.1 = 0 then 1 else mb.1
        (cx1 + (cx1 - mb.2.x) / d * push, cy1 + (cy1 - mb.2.y) / d * push)
      else (cx1, cy1)
  ⟨max r (min (panelW - r) c2.1), max r (min (panelH - r) c2.2), r⟩

/-- Derived internal dimensions of one job (src/lib/types.ts, deriveInner). -/
def deriveInner (job : BookJob) : ℚ × ℚ × ℚ :=
  (job.W_ext - 2 * job.clear_side, job.D_ext - 2 * job.clear_depth,
   job.h_visible + job.raise_gap)

/-- Display string of a panel type (the template-literal interpolation used
when building uids). -/
def PartType.str : PartType → String
  | .BASE => "BASE"
  | .LID => "LID"
  | .FRONT => "FRONT"
  | .BACK => "BACK"
  | .LEFT => "LEFT"
  | .RIGHT => "RIGHT"

/-- The partify helper of mkParts: wraps one panel geometry as a Part; the
counter value is the running partCounter at the call. -/
def partify (job : BookJob) (ptype : PartType) (geom : PanelGeom) (counter : ℕ) : Part :=
  { uid := job.id ++ ":" ++ ptype.str ++ ":" ++ toString counter
    jobId := job.id
    bookName := job.name
    partType := ptype
    w := geom.width
    h := geom.height
    holes := geom.holes ++ geom.magnetHoles
    contourPoints := geom.contourPoints
    labelAt := geom.labelCenter }

/-- Part factory (src/lib/types.ts, mkParts): the six panels of one job, with
magnet holes added to the base after clearance enforcement. -/
def mkParts (hypotDist : ℚ → ℚ → ℚ) (job : BookJob) (g : Globals) : List Part :=
  let inner := deriveInner job
  let W_int := inner.1
  let D_int := inner.2.1
  let H_wall := inner.2.2
  let baseRaw := makeFingerJointedPanel W_int D_int
    ⟨⟨true, none, .female⟩, ⟨true, none, .female⟩, ⟨true, none, .female⟩,
     ⟨true, none, .female⟩⟩ {} g job
  let rNom := (job.mag_diam + job.mag_clear + g.kerf) / 2
  let magnetHoles0 : List Hole :=
    (if job.mag_count ≥ 2 then
      [⟨job.mag_edge_offset, job.mag_edge_offset, rNom⟩,
       ⟨W_int - job.mag_edge_offset, job.mag_edge_offset, rNom⟩]
     else []) ++
    (if job.mag_count = 4 then
      [⟨job.mag_edge_offset, D_int - job.mag_edge_offset, rNom⟩,
       ⟨W_int - job.mag_edge_offset, D_int - job.mag_edge_offset, rNom⟩]
     else [])
  let magnetHoles := magnetHoles0.map
    (fun hl => enforceHoleClearances hypotDist hl baseRaw.width baseRaw.height
      baseRaw.valleyPts g.t)
  let baseGeom := { baseRaw with magnetHoles := magnetHoles }
  let lidEdges : EdgeSet :=
    ⟨⟨true, none, .female⟩, ⟨true, some job.tape_reserved_strip, .female⟩,
     ⟨true, none, .female⟩, ⟨true, none, .female⟩⟩
  let LID := makeFingerJointedPanel W_int D_int lidEdges {} g job
  let frontEdges : EdgeSet :=
    ⟨⟨true, none, .male⟩, ⟨true, none, .male⟩, ⟨true, none, .male⟩, ⟨true, none, .male⟩⟩
  let backEdges : EdgeSet :=
    ⟨⟨true, none, .male⟩, ⟨true, some job.tape_reserved_strip, .male⟩,
     ⟨true, none, .male⟩, ⟨true, none, .male⟩⟩
  let leftEdges : EdgeSet :=
    ⟨⟨true, none, .male⟩, ⟨true, none, .female⟩, ⟨true, none, .male⟩, ⟨true, none, .female⟩⟩
  let rightEdges : EdgeSet :=
    ⟨⟨true, none, .male⟩, ⟨true, none, .female⟩, ⟨true, none, .male⟩, ⟨true, none, .female⟩⟩
  let FRONT := makeFingerJointedPanel W_int H_wall frontEdges {} g job
  let BACK := makeFingerJointedPanel W_int H_wall backEdges {} g job
  let LEFT := makeFingerJointedPanel D_int H_wall leftEdges {} g job
  let RIGHT := makeFingerJointedPanel D_int H_wall rightEdges {} g job
  [partify job .BASE baseGeom 0, partify job .LID LID 1, partify job .FRONT FRONT 2,
   partify job .BACK BACK 3, partify job .LEFT LEFT 4, partify job .RIGHT RIGHT 5]

/-- Sheet-space image of one local point under a placement's transform
(the transformAndUpdateBounds closure of isPartInBounds). -/
def transformPoint (p : PlacedPart) (q : Point) : Point :=
  if p.rotated then ⟨-q.y + p.x + p.part.h, q.x + p.y⟩
  else ⟨q.x + p.x, q.y + p.y⟩

/-- The local points whose sheet-space bounds isPartInBounds examines: all
contour points, then the four corner extrema of each hole. -/
def boundPoints (p : PlacedPart) : List Point :=
  p.part.contourPoints ++
    p.part.holes.flatMap (fun hl =>
      [⟨hl.cx - hl.r, hl.cy - hl.r⟩, ⟨hl.cx + hl.r, hl.cy - hl.r⟩,
       ⟨hl.cx + hl.r, hl.cy + hl.r⟩, ⟨hl.cx - hl.r, hl.cy + hl.r⟩])

/-- Running minimum over a list; none models the +infinity seed. -/
def minListO (l : List ℚ) : Option ℚ :=
  l.foldl (fun acc q => match acc with | none => some q | some m => some (min m q)) none

/-- Running maximum over a list; none models the -infinity seed. -/
def maxListO (l : List ℚ) : Option ℚ :=
  l.foldl (fun acc q => match acc with | none => some q | some m => some (max m q)) none

/-- Exact placement verifier (src/lib/types.ts, isPartInBounds): the min/max
of all transformed contour and hole-corner points must lie within the margins
with 1e-6 tolerance; a comparison against the infinity seed is true. -/
def isPartInBounds (p : PlacedPart) (g : Globals) : Bool :=
  let pts := (boundPoints p).map (transformPoint p)
  let okMin := fun (o : Option ℚ) (bound : ℚ) =>
    match o with | none => true | some m => decide (m ≥ bound)
  let okMax := fun (o : Option ℚ) (bound : ℚ) =>
    match o with | none => true | some m => decide (m ≤ bound)
  okMin (minListO (pts.map (fun q => q.x))) (g.margin - EPS) &&
  okMax (maxListO (pts.map (fun q => q.x))) (g.sheet_w - g.margin + EPS) &&
  okMin (minListO (pts.map (fun q => q.y))) (g.margin - EPS) &&
  okMax (maxListO (pts.map (fun q => q.y))) (g.sheet_h - g.margin + EPS)

/-- Failure of generatePlacedParts: either the unrecoverable layout failure
(carrying the offending part's type and dimensions, the data interpolated
into the thrown Error message) or fuel exhaustion of the embedded loop. -/
inductive LayoutError where
  | layoutFailed (partType : PartType) (w h : ℚ)
  | outOfFuel
deriving DecidableEq, Repr

/-- Placeholder for the non-null map lookup assertion; never reached in the
states generatePlacedParts actually visits. -/
def defaultPart : Part := ⟨"", "", "", .BASE, 0, 0, [], [], ⟨0, 0⟩⟩

/-- Lookup in the uid-keyed map built from all parts; a JavaScript Map keeps
the last entry for a duplicated key, hence the reversed search. -/
def lookupByUid (allParts : List Part) (uid : String) : Option Part :=
  allParts.reverse.find? (fun p => p.uid == uid)

/-- Insertion-order deduplication, first occurrence kept (a JavaScript Set). -/
def dedupKeepFirst (l : List String) : List String :=
  l.foldl (fun acc u => if acc.contains u then acc else acc ++ [u]) []

/-- Overflow test of the orchestrator loop: unplaced sentinel or failed exact
bounds check. -/
def overflowsP (g : Globals) (q : PlacedPart) : Bool :=
  q.sheetIndex == -1 || !(isPartInBounds q g)

/-- Largest sheet index among placed parts, -1 when there are none (the
sheetIndexOffset update of generatePlacedParts, before the + 1). -/
def maxSheetIndex (l : List PlacedPart) : ℤ :=
  match l with
  | [] => -1
  | a :: r => r.foldl (fun m q => max m q.sheetIndex) a.sheetIndex

/-- The pack-verify-retry loop of generatePlacedParts.  One iteration packs
the pending batch, splits the attempt into validly placed parts and overflow
uids, fails hard when the whole batch overflowed, and otherwise retries the
overflow on a fresh sheet index. -/
def gpLoop (g : Globals) (allParts : List Part) :
    ℕ → List Part → ℤ → List PlacedPart → Except LayoutError (List PlacedPart)
  | _, [], _, acc => .ok acc
  | 0, _ :: _, _, _ => .error .outOfFuel
  | fuel + 1, p0 :: prest, off, acc =>
    let partsToPack := p0 :: prest
    let attempt := pack partsToPack g off
    let valid := attempt.filter (fun q => !(overflowsP g q))
    let overflowUids := dedupKeepFirst ((attempt.filter (overflowsP g)).map
      (fun q => q.part.uid))
    let acc2 := acc ++ valid
    if overflowUids.length ≠ 0 ∧ overflowUids.length = partsToPack.length then
      let failedPart := (lookupByUid allParts (overflowUids.headD "")).getD defaultPart
      .error (.layoutFailed failedPart.partType failedPart.w failedPart.h)
    else
      gpLoop g allParts fuel
        (overflowUids.map (fun u => (lookupByUid allParts u).getD defaultPart))
        (maxSheetIndex acc2 + 1) acc2

/-- The fixed book color palette (src/lib/types.ts, getBookColorPalette). -/
def getBookColorPalette : List String :=
  ["#FF0000", "#E60000", "#CC0000", "#B30000", "#990000", "#800000", "#660000", "#4D0000"]

/-- Final color / book-index assignment of generatePlacedParts.  findIndex
yields -1 for an unknown job id, in which case the JavaScript palette lookup
produces undefined, modelled as the empty string. -/
def colorize (jobs : List BookJob) (p : PlacedPart) : PlacedPart :=
  let bookIndex : ℤ :=
    match jobs.findIdx? (fun j => j.id == p.part.jobId) with
    | some i => (i : ℤ)
    | none => -1
  let palette := getBookColorPalette
  let j := Int.tmod bookIndex (palette.length : ℤ)
  let color := if j < 0 then "" else palette.getD j.toNat ""
  { p with bookColor := color, bookIndex := bookIndex }

/-- Main orchestration entry point (src/lib/types.ts, generatePlacedParts),
with explicit fuel for the retry loop and the Euclidean-distance parameter
threaded to the hole-clearance enforcer. -/
def generatePlacedParts (hypotDist : ℚ → ℚ → ℚ) (fuel : ℕ) (jobs : List BookJob)
    (g : Globals) : Except LayoutError (List PlacedPart) :=
  let allParts := jobs.flatMap (fun job => mkParts hypotDist job g)
  match gpLoop g allParts fuel allParts 0 [] with
  | .error e => .error e
  | .ok final => .ok (final.map (colorize jobs))

/-! ## Spec-side definitions (formalizations of the claims' vocabulary) -/

/-- Signed overlap depth of two rectangles along x: positive iff the open
x-ranges intersect. -/
def xOverlap (a b : FreeRect) : ℚ :=
  min (a.x + a.w) (b.x + b.w) - max a.x b.x

/-- Signed overlap depth of two rectangles along y. -/
def yOverlap (a b : FreeRect) : ℚ :=
  min (a.y + a.h) (b.y + b.h) - max a.y b.y

/-- Overlap of a and b is at most e deep in at least one axis. -/
def slimOverlap (e : ℚ) (a b : FreeRect) : Prop :=
  xOverlap a b ≤ e ∨ yOverlap a b ≤ e

/-- The x-extent of a lies inside the x-extent of b. -/
def rectSubX (a b : FreeRect) : Prop :=
  b.x ≤ a.x ∧ a.x + a.w ≤ b.x + b.w

/-- The y-extent of a lies inside the y-extent of b. -/
def rectSubY (a b : FreeRect) : Prop :=
  b.y ≤ a.y ∧ a.y + a.h ≤ b.y + b.h

/-- The gap-padded post-rotation bounding box of a sheet placement — exactly
the blockRect subtracted from the free set by packSheet. -/
def placementBox (gap : ℚ) (pl : SheetPlacement) : FreeRect :=
  ⟨pl.x, pl.y, (if pl.rotated then pl.part.h else pl.part.w) + gap,
    (if pl.rotated then pl.part.w else pl.part.h) + gap⟩

/-- The gap-padded post-rotation bounding box of a placed part, per claim C2:
the rectangle (x, x + w' + gap) × (y, y + h' + gap). -/
def placedBox (gap : ℚ) (p : PlacedPart) : FreeRect :=
  ⟨p.x, p.y, (if p.rotated then p.part.h else p.part.w) + gap,
    (if p.rotated then p.part.w else p.part.h) + gap⟩

/-- Claim C2's disjointness of two open padded boxes. -/
def paddedBoxesDisjoint (gap : ℚ) (p q : PlacedPart) : Prop :=
  xOverlap (placedBox gap p) (placedBox gap q) ≤ 0 ∨
    yOverlap (placedBox gap p) (placedBox gap q) ≤ 0

/-- Decidability of the claim C2 disjointness, via its two comparisons. -/
instance (gap : ℚ) (p q : PlacedPart) : Decidable (paddedBoxesDisjoint gap p q) :=
  instDecidableOr

/-- Spec-side validity of a fit (claim C5): part dimension plus gap is at
most the free dimension plus the 1e-6 tolerance on both axes. -/
def specFitValid (gap : ℚ) (fr : FreeRect) (pw ph : ℚ) : Prop :=
  pw + gap ≤ fr.w + EPS ∧ ph + gap ≤ fr.h + EPS

/-- Decidability of the spec-side fit test, via its two comparisons. -/
instance (gap : ℚ) (fr : FreeRect) (pw ph : ℚ) : Decidable (specFitValid gap fr pw ph) :=
  instDecidableAnd

/-- Spec-side Best Short Side Fit score (claim C5). -/
def specScore (gap : ℚ) (fr : FreeRect) (pw ph : ℚ) : ℚ :=
  min (fr.w - (pw + gap)) (fr.h - (ph + gap))

/-- All candidates of the position chooser in evaluation order: free
rectangles by ascending index, the unrotated orientation before the rotated
one within each rectangle. -/
def candList (part : Part) (free : List FreeRect) (allowRotation : Bool)
    (gap : ℚ) : List Candidate :=
  free.enum.flatMap (fun p =>
    (tryFitCand gap p.1 p.2 part.w part.h false).toList ++
      (if allowRotation then (tryFitCand gap p.1 p.2 part.h part.w true).toList else []))

/-- Left fold of the strict-improvement update over a candidate list; the
chooser is proven equal to this selection. -/
def selectBest (acc : Option Candidate) (l : List Candidate) : Option Candidate :=
  l.foldl (fun b c =>
    match b with
    | none => some c
    | some b' => if c.score < b'.score then some c else some b') acc

/-- Membership of a point in a rectangle, half-open on the far edges (the
set-of-points reading of a FreeRect used by claim C9). -/
def ptIn (r : FreeRect) (px py : ℚ) : Prop :=
  r.x ≤ px ∧ px < r.x + r.w ∧ r.y ≤ py ∧ py < r.y + r.h

/-- Membership of a point in the union of a rectangle list. -/
def inUnion (l : List FreeRect) (px py : ℚ) : Prop :=
  ∃ r ∈ l, ptIn r px py

/-- Non-degeneracy of one split step for one free rectangle: every overlap
and residual extent is either empty or strictly beyond the EPS tolerance, and
the rectangles sit inside the sheet.  Under this condition the EPS guards of
splitFreeRects agree with the exact geometry. -/
def splitStepExact (sheetW sheetH : ℚ) (used fr : FreeRect) : Prop :=
  (xOverlap fr used ≤ 0 ∨ EPS < xOverlap fr used) ∧
  (yOverlap fr used ≤ 0 ∨ EPS < yOverlap fr used) ∧
  (max fr.y used.y - fr.y ≤ 0 ∨ EPS < max fr.y used.y - fr.y) ∧
  (fr.y + fr.h - min (fr.y + fr.h) (used.y + used.h) ≤ 0 ∨
    EPS < fr.y + fr.h - min (fr.y + fr.h) (used.y + used.h)) ∧
  (max fr.x used.x - fr.x ≤ 0 ∨ EPS < max fr.x used.x - fr.x) ∧
  (fr.x + fr.w - min (fr.x + fr.w) (used.x + used.w) ≤ 0 ∨
    EPS < fr.x + fr.w - min (fr.x + fr.w) (used.x + used.w)) ∧
  0 ≤ fr.x ∧ 0 ≤ fr.y ∧ fr.x + fr.w ≤ sheetW ∧ fr.y + fr.h ≤ sheetH ∧
  EPS < fr.w ∧ EPS < fr.h

/-- Decidability of point membership, via its four comparisons. -/
instance (r : FreeRect) (px py : ℚ) : Decidable (ptIn r px py) :=
  instDecidableAnd

/-- Decidability of union membership, via the bounded existential. -/
instance (l : List FreeRect) (px py : ℚ) : Decidable (inUnion l px py) :=
  List.decidableBEx _ l

/-- Decidability of split-step exactness, via its comparisons. -/
instance (sheetW sheetH : ℚ) (used fr : FreeRect) :
    Decidable (splitStepExact sheetW sheetH used fr) :=
  instDecidableAnd

/-- The deduplicated overflow uids of one loop iteration (the overflowUids
set of generatePlacedParts). -/
def overflowUidsOf (g : Globals) (batch : List Part) (off : ℤ) : List String :=
  dedupKeepFirst (((pack batch g off).filter (overflowsP g)).map (fun q => q.part.uid))

/-- The validly placed parts of one loop iteration. -/
def validOf (g : Globals) (batch : List Part) (off : ℤ) : List PlacedPart :=
  (pack batch g off).filter (fun q => !(overflowsP g q))

/-- The part looked up for the unrecoverable-layout error message: the map
entry of the first overflow uid (claim C4). -/
def firstOverflowPart (g : Globals) (allParts batch : List Part) (off : ℤ) : Part :=
  (lookupByUid allParts ((overflowUidsOf g batch off).headD "")).getD defaultPart

/-! ## Concrete fixtures for witnesses and counterexamples -/

/-- A bare rectangular part for feeding the packer directly. -/
def mkTestPart (nm : String) (w h : ℚ) : Part := ⟨nm, "", "", .BASE, w, h, [], [], ⟨0, 0⟩⟩

/-- Five parts exhibiting a tolerance-slip overlap in the packer (claim C2):
part A fits rectangle (11,4) 9 × 10 only through the 1e-6 slack of the fit
test, its block box leaks 5e-7 below into the kept-whole rectangle beneath,
and C2 later straddles the leak. -/
def c2parts : List Part :=
  [mkTestPart "P0" 20 4, mkTestPart "P1" 11 10,
   mkTestPart "A" 9 (10 + 1 / 2000000), mkTestPart "C1" 6 5, mkTestPart "C2" 6 5]

/-- Globals with usable area 20 × 20, no margin, no gap, no rotation. -/
def c2Globals : Globals :=
  { sheet_w := 20, sheet_h := 20, margin := 0, part_gap := 0,
    allow_rotation := false, kerf := 1 / 100, t := 1 / 10 }

/-- A small book job all of whose six parts pack onto one 10 × 10 sheet. -/
def wJob : BookJob :=
  { id := "b1", name := "B1", H_ext := 2, W_ext := 1, D_ext := 1,
    clear_side := 1 / 4, clear_depth := 1 / 4, h_visible := 1 / 5, raise_gap := 1 / 10,
    tab_w_rule := 1 / 2, joint_clear := 1 / 250, symmetric_ends := true,
    hinge_edge := .FORE, tape_reserved_strip := 0, tape_guide := false,
    mag_count := 0, mag_diam := 0, mag_thick := 0, mag_clear := 0, mag_edge_offset := 0 }

/-- Globals for the witness runs: 10 × 10 sheet, margin 0.5. -/
def wGlobals : Globals :=
  { sheet_w := 10, sheet_h := 10, margin := 1 / 2, part_gap := 1 / 10,
    allow_rotation := true, kerf := 1 / 100, t := 1 / 10 }

/-- The witness job with four magnets (scenario C of the specification). -/
def magJobC8 : BookJob :=
  { wJob with mag_count := 4, mag_diam := 157 / 1000, mag_clear := 1 / 125,
              mag_edge_offset := 1 / 2 }

/-- A job whose panels are wider than the usable sheet in both orientations
(scenario B of the specification). -/
def bigJobC4 : BookJob :=
  { id := "big", name := "Big", H_ext := 2, W_ext := 5 / 2, D_ext := 5 / 2,
    clear_side := 1 / 4, clear_depth := 1 / 4, h_visible := 1 / 5, raise_gap := 1 / 10,
    tab_w_rule := 1 / 2, joint_clear := 1 / 250, symmetric_ends := false,
    hinge_edge := .FORE, tape_reserved_strip := 0, tape_guide := false,
    mag_count := 0, mag_diam := 0, mag_thick := 0, mag_clear := 0, mag_edge_offset := 0 }

/-- A sheet whose usable area is 1.5 × 1.5, too small for bigJobC4's panels. -/
def smGlobalsC4 : Globals :=
  { sheet_w := 2, sheet_h := 2, margin := 1 / 4, part_gap := 0,
    allow_rotation := true, kerf := 1 / 100, t := 1 / 10 }

/-! ## Helper lemmas -/

/-- The enforcer always returns the input radius and clamps both center
coordinates into the [r, dim - r] band; only the middle computation varies. -/
lemma enforceHoleClearances_shape (hypotDist : ℚ → ℚ → ℚ) (hole : Hole)
    (panelW panelH : ℚ) (valleys : List Point) (t : ℚ) :
    ∃ c1 c2, enforceHoleClearances hypotDist hole panelW panelH valleys t =
      ⟨max hole.r (min (panelW - hole.r) c1), max hole.r (min (panelH - hole.r) c2),
       hole.r⟩ :=
  ⟨_, _, rfl⟩

/-- The radius passes through the enforcer untouched. -/
lemma enforceHoleClearances_r (hypotDist : ℚ → ℚ → ℚ) (hole : Hole)
    (panelW panelH : ℚ) (valleys : List Point) (t : ℚ) :
    (enforceHoleClearances hypotDist hole panelW panelH valleys t).r = hole.r := by
  obtain ⟨c1, c2, h⟩ := enforceHoleClearances_shape hypotDist hole panelW panelH valleys t
  rw [h]

/-- Any property holding of the seed and of every scanned pair holds of the
result of the nearest-valley fold. -/
lemma nearestFold_prop {P : ℚ × Point → Prop} (f : Point → ℚ) :
    ∀ (l : List Point) (acc : Option (ℚ × Point)),
      (∀ mb, acc = some mb → P mb) → (∀ v ∈ l, P (f v, v)) →
      ∀ mb,
        l.foldl (fun acc v =>
          match acc with
          | none => some (f v, v)
          | some mb => if f v < mb.1 then some (f v, v) else some mb) acc = some mb →
        P mb := by
  intro l
  induction l with
  | nil => intro acc hacc _ mb hmb; exact hacc mb hmb
  | cons v rest ih =>
    intro acc hacc hl mb hmb
    refine ih _ ?_ (fun w hw => hl w (List.mem_cons_of_mem _ hw)) mb hmb
    intro mb' hmb'
    match acc, hmb' with
    | none, hmb' =>
      simp only [Option.some.injEq] at hmb'
      exact hmb' ▸ hl v (List.mem_cons_self _ _)
    | some mb0, hmb' =>
      by_cases hd : f v < mb0.1
      · simp only [hd, if_true, Option.some.injEq] at hmb'
        exact hmb' ▸ hl v (List.mem_cons_self _ _)
      · simp only [hd, if_false, Option.some.injEq] at hmb'
        exact hmb' ▸ hacc mb0 rfl

/-- jsRound of a positive rational is nonnegative. -/
lemma jsRound_nonneg {q : ℚ} (h : 0 < q) : 0 ≤ jsRound q := by
  unfold jsRound
  rw [Int.le_floor]
  push_cast
  linarith




/-! ## Conservation machinery (claims C3 and C4) -/

/-- One sheet's placement loop partitions its input: placed parts followed by
the remainder are a permutation of the input list. -/
lemma packSheetGo_perm (w h : ℚ) (ar : Bool) (gap : ℚ) :
    ∀ (parts : List Part) (free : List FreeRect),
      ((packSheetGo w h ar gap parts free).1.map (fun pl => pl.part) ++
        (packSheetGo w h ar gap parts free).2).Perm parts := by
  intro parts
  induction parts with
  | nil => intro free; rfl
  | cons part rest ih =>
    intro free
    rw [packSheetGo]
    rcases hc : chooseMaxRectsPosition part free ar gap with _ | cand
    · simp only
      exact List.perm_middle.trans ((ih free).cons part)
    · simp only [List.map_cons, List.cons_append]
      exact (ih _).cons part

/-- packSheet partitions its input up to permutation. -/
lemma packSheet_perm (parts : List Part) (w h : ℚ) (ar : Bool) (gap : ℚ) :
    ((packSheet parts w h ar gap).1.map (fun pl => pl.part) ++
      (packSheet parts w h ar gap).2).Perm parts :=
  (packSheetGo_perm w h ar gap _ _).trans (List.mergeSort_perm parts partSortLe)

/-- Unfolding of one multi-sheet iteration of packGo. -/
lemma packGo_succ_cons (g : Globals) (fuel : ℕ) (p : Part) (rest : List Part) (si : ℤ) :
    packGo g (fuel + 1) (p :: rest) si =
      (if ((packSheet (p :: rest) (g.sheet_w - 2 * g.margin) (g.sheet_h - 2 * g.margin)
          g.allow_rotation g.part_gap).1).isEmpty then
        ((packSheet (p :: rest) (g.sheet_w - 2 * g.margin) (g.sheet_h - 2 * g.margin)
          g.allow_rotation g.part_gap).2).map mkSentinel
      else
        ((packSheet (p :: rest) (g.sheet_w - 2 * g.margin) (g.sheet_h - 2 * g.margin)
          g.allow_rotation g.part_gap).1).map (mkPlacedOnSheet g.margin si) ++
          packGo g fuel ((packSheet (p :: rest) (g.sheet_w - 2 * g.margin)
            (g.sheet_h - 2 * g.margin) g.allow_rotation g.part_gap).2) (si + 1)) := rfl

/-- Sentinels carry their part unchanged. -/
lemma map_part_map_mkSentinel (l : List Part) :
    (l.map mkSentinel).map (fun q => q.part) = l := by
  induction l with
  | nil => rfl
  | cons a l ih => simp only [List.map_cons, mkSentinel, ih]

/-- Sheet placements carry their part unchanged into placed parts. -/
lemma map_part_map_mkPlacedOnSheet (m : ℚ) (si : ℤ) (l : List SheetPlacement) :
    (l.map (mkPlacedOnSheet m si)).map (fun q => q.part) = l.map (fun pl => pl.part) := by
  induction l with
  | nil => rfl
  | cons a l ih => simp only [List.map_cons, mkPlacedOnSheet, ih]

/-- The multi-sheet loop conserves parts: the underlying parts of its output
are a permutation of its input, for every fuel value. -/
lemma packGo_part_perm (g : Globals) :
    ∀ (fuel : ℕ) (parts : List Part) (si : ℤ),
      ((packGo g fuel parts si).map (fun q => q.part)).Perm parts := by
  intro fuel
  induction fuel with
  | zero =>
    intro parts si
    cases parts with
    | nil => rfl
    | cons p rest =>
      rw [show packGo g 0 (p :: rest) si = (p :: rest).map mkSentinel from rfl]
      rw [map_part_map_mkSentinel]
  | succ fuel ih =>
    intro parts si
    cases parts with
    | nil => rfl
    | cons p rest =>
      have hper := packSheet_perm (p :: rest) (g.sheet_w - 2 * g.margin)
        (g.sheet_h - 2 * g.margin) g.allow_rotation g.part_gap
      rw [packGo_succ_cons]
      by_cases hemp : ((packSheet (p :: rest) (g.sheet_w - 2 * g.margin)
          (g.sheet_h - 2 * g.margin) g.allow_rotation g.part_gap).1).isEmpty
      · rw [if_pos hemp, map_part_map_mkSentinel]
        rw [List.isEmpty_iff] at hemp
        rw [hemp, List.map_nil, List.nil_append] at hper
        exact hper
      · rw [if_neg hemp, List.map_append, map_part_map_mkPlacedOnSheet]
        refine List.Perm.trans ?_ hper
        exact List.Perm.append_left _ (ih _ (si + 1))

/-- pack conserves parts up to permutation. -/
lemma pack_part_perm (parts : List Part) (g : Globals) (off : ℤ) :
    ((pack parts g off).map (fun q => q.part)).Perm parts :=
  packGo_part_perm g _ parts off

/-- pack conserves part uids up to permutation. -/
lemma pack_uid_perm (parts : List Part) (g : Globals) (off : ℤ) :
    ((pack parts g off).map (fun q => q.part.uid)).Perm (parts.map Part.uid) := by
  have h := (pack_part_perm parts g off).map Part.uid
  rw [List.map_map] at h
  exact h

/-- On a duplicate-free list the first-occurrence deduplication is the
identity. -/
lemma dedupKeepFirst_eq_self :
    ∀ (l : List String), l.Nodup → dedupKeepFirst l = l := by
  have aux : ∀ (l : List String) (acc : List String),
      (∀ x ∈ l, ¬ x ∈ acc) → l.Nodup →
      l.foldl (fun acc u => if acc.contains u then acc else acc ++ [u]) acc = acc ++ l := by
    intro l
    induction l with
    | nil => intro acc _ _; simp
    | cons a l ih =>
      intro acc hnin hnd
      have hca : acc.contains a = false := by
        have h := hnin a (List.mem_cons_self a l)
        simp only [List.contains_eq_any_beq, List.any_eq_false]
        intro x hx hbeq
        exact h (eq_of_beq hbeq ▸ hx)
      rw [List.foldl_cons, hca]
      simp only [Bool.false_eq_true, if_false]
      have hrest : ∀ x ∈ l, x ∉ acc ++ [a] := by
        intro x hx
        rw [List.mem_append, List.mem_singleton]
        rintro (hxa | rfl)
        · exact hnin x (List.mem_cons_of_mem a hx) hxa
        · exact (List.nodup_cons.1 hnd).1 hx
      rw [ih (acc ++ [a]) hrest (List.Nodup.of_cons hnd), List.append_assoc]
      rfl
  intro l hnd
  have := aux l [] (by simp) hnd
  rw [dedupKeepFirst, this, List.nil_append]

/-- A successful uid lookup returns a list member carrying that uid. -/
lemma lookupByUid_mem {allParts : List Part} {u : String} {p : Part}
    (h : lookupByUid allParts u = some p) : p ∈ allParts ∧ p.uid = u := by
  rw [lookupByUid] at h
  refine ⟨List.mem_reverse.1 (List.mem_of_find?_eq_some h), ?_⟩
  have := List.find?_some h
  exact eq_of_beq this

/-- A uid present in the list is found by the lookup. -/
lemma lookupByUid_isSome {allParts : List Part} {u : String}
    (h : u ∈ allParts.map Part.uid) : ∃ p, lookupByUid allParts u = some p := by
  rw [List.mem_map] at h
  obtain ⟨p, hp, rfl⟩ := h
  rw [lookupByUid]
  have : ∃ x ∈ allParts.reverse, (x.uid == p.uid) = true :=
    ⟨p, List.mem_reverse.2 hp, beq_self_eq_true _⟩
  rw [← List.find?_isSome] at this
  rcases hf : List.find? (fun q => q.uid == p.uid) allParts.reverse with _ | q
  · rw [hf] at this; cases this
  · exact ⟨q, hf⟩



/-! ## Claim C2 -/

/-- Unfolding of selectBest on the empty list. -/
lemma selectBest_nil (acc : Option Candidate) : selectBest acc [] = acc := rfl

/-- Unfolding of selectBest on a cons with empty accumulator. -/
lemma selectBest_cons_none (a : Candidate) (l : List Candidate) :
    selectBest none (a :: l) = selectBest (some a) l := rfl

/-- Unfolding of selectBest on a cons with a current best. -/
lemma selectBest_cons_some (b a : Candidate) (l : List Candidate) :
    selectBest (some b) (a :: l) =
      selectBest (if a.score < b.score then some a else some b) l := rfl

/-- selectBest distributes over list append. -/
lemma selectBest_append (acc : Option Candidate) (l1 l2 : List Candidate) :
    selectBest acc (l1 ++ l2) = selectBest (selectBest acc l1) l2 :=
  List.foldl_append _ _ _ _

/-- Folding one optional candidate equals one updateBest step. -/
lemma selectBest_toList (acc : Option Candidate) (o : Option Candidate) :
    selectBest acc o.toList = updateBest acc o := by
  cases o <;> rfl

/-- The chooser's fold over the enumerated free rectangles equals the
selection fold over the flattened candidate list, for any start index. -/
lemma choose_enumFrom_eq (part : Part) (ar : Bool) (gap : ℚ) :
    ∀ (l : List FreeRect) (n : ℕ) (acc : Option Candidate),
      (List.enumFrom n l).foldl
        (fun best p =>
          let b1 := updateBest best (tryFitCand gap p.1 p.2 part.w part.h false)
          if ar then updateBest b1 (tryFitCand gap p.1 p.2 part.h part.w true) else b1)
        acc =
      selectBest acc ((List.enumFrom n l).flatMap (fun p =>
        (tryFitCand gap p.1 p.2 part.w part.h false).toList ++
          (if ar then (tryFitCand gap p.1 p.2 part.h part.w true).toList else []))) := by
  intro l
  induction l with
  | nil => intro n acc; rfl
  | cons a l ih =>
    intro n acc
    have hstep : (fun best (p : ℕ × FreeRect) =>
        let b1 := updateBest best (tryFitCand gap p.1 p.2 part.w part.h false)
        if ar then updateBest b1 (tryFitCand gap p.1 p.2 part.h part.w true) else b1)
          acc (n, a) =
        selectBest acc ((tryFitCand gap n a part.w part.h false).toList ++
          (if ar then (tryFitCand gap n a part.h part.w true).toList else [])) := by
      rw [selectBest_append, selectBest_toList]
      cases ar
      · simp only [if_false, Bool.false_eq_true, selectBest_nil]
      · simp only [if_true, selectBest_toList]
    rw [List.enumFrom_cons, List.foldl_cons, List.flatMap_cons, selectBest_append, ← hstep]
    exact ih (n + 1) _

/-- The chooser is the first-strict-improvement selection over the candidate
list in evaluation order. -/
lemma choose_eq_selectBest (part : Part) (free : List FreeRect) (ar : Bool) (gap : ℚ) :
    chooseMaxRectsPosition part free ar gap = selectBest none (candList part free ar gap) :=
  choose_enumFrom_eq part ar gap free 0 none

/-- Full characterization of the selection fold: the result either is the
seed, never strictly beaten, or splits the list around its first occurrence,
with everything before strictly worse and everything after never strictly
better, and strictly better than the seed. -/
lemma selectBest_spec :
    ∀ (l : List Candidate) (acc : Option Candidate) (c : Candidate),
      selectBest acc l = some c →
      (acc = some c ∧ ∀ c' ∈ l, ¬ c'.score < c.score) ∨
      (∃ l1 l2, l = l1 ++ c :: l2 ∧ (∀ c' ∈ l1, c.score < c'.score) ∧
        (∀ c' ∈ l2, ¬ c'.score < c.score) ∧ (∀ b, acc = some b → c.score < b.score)) := by
  intro l
  induction l with
  | nil => intro acc c h; exact Or.inl ⟨h, by simp⟩
  | cons a l ih =>
    intro acc c h
    cases acc with
    | none =>
      rw [selectBest_cons_none] at h
      rcases ih (some a) c h with ⟨ha, hall⟩ | ⟨l1, l2, hdec, h1, h2, hb⟩
      · injection ha with ha
        subst ha
        exact Or.inr ⟨[], l, rfl, by simp, hall, by simp⟩
      · have hca : c.score < a.score := hb a rfl
        refine Or.inr ⟨a :: l1, l2, by rw [hdec, List.cons_append], ?_, h2, by simp⟩
        intro c' hc'
        rcases List.mem_cons.1 hc' with rfl | hc'
        · exact hca
        · exact h1 c' hc'
    | some b =>
      rw [selectBest_cons_some] at h
      by_cases hab : a.score < b.score
      · rw [if_pos hab] at h
        rcases ih (some a) c h with ⟨ha, hall⟩ | ⟨l1, l2, hdec, h1, h2, hbc⟩
        · injection ha with ha
          subst ha
          refine Or.inr ⟨[], l, rfl, by simp, hall, ?_⟩
          intro b' hb'
          injection hb' with hb'
          subst hb'
          exact hab
        · have hca : c.score < a.score := hbc a rfl
          refine Or.inr ⟨a :: l1, l2, by rw [hdec, List.cons_append], ?_, h2, ?_⟩
          · intro c' hc'
            rcases List.mem_cons.1 hc' with rfl | hc'
            · exact hca
            · exact h1 c' hc'
          · intro b' hb'
            injection hb' with hb'
            subst hb'
            exact lt_trans hca hab
      · rw [if_neg hab] at h
        rcases ih (some b) c h with ⟨hb, hall⟩ | ⟨l1, l2, hdec, h1, h2, hbc⟩
        · injection hb with hb
          subst hb
          refine Or.inl ⟨rfl, ?_⟩
          intro c' hc'
          rcases List.mem_cons.1 hc' with rfl | hc'
          · exact hab
          · exact hall c' hc'
        · have hcb : c.score < b.score := hbc b rfl
          refine Or.inr ⟨a :: l1, l2, by rw [hdec, List.cons_append], ?_, h2, ?_⟩
          · intro c' hc'
            rcases List.mem_cons.1 hc' with rfl | hc'
            · exact lt_of_lt_of_le hcb (not_lt.1 hab)
            · exact h1 c' hc'
          · intro b' hb'
            injection hb' with hb'
            subst hb'
            exact hcb

/-- Seeded selection never returns none. -/
lemma selectBest_isSome :
    ∀ (l : List Candidate) (acc : Option Candidate), acc.isSome → (selectBest acc l).isSome := by
  intro l
  induction l with
  | nil => intro acc h; exact h
  | cons a l ih =>
    intro acc h
    cases acc with
    | none => exact absurd h (by simp)
    | some b =>
      rw [selectBest_cons_some]
      by_cases hab : a.score < b.score
      · rw [if_pos hab]; exact ih _ rfl
      · rw [if_neg hab]; exact ih _ rfl

/-- The selection is empty exactly on the empty candidate list. -/
lemma selectBest_none_iff (l : List Candidate) : selectBest none l = none ↔ l = [] := by
  cases l with
  | nil => simp [selectBest_nil]
  | cons a l =>
    constructor
    · intro h
      rw [selectBest_cons_none] at h
      have := selectBest_isSome l (some a) rfl
      rw [h] at this
      cases this
    · intro h
      cases h


/-- EPS is positive. -/
lemma EPS_pos : (0 : ℚ) < EPS := by norm_num [EPS]

/-- xOverlap is symmetric. -/
lemma xOverlap_comm (a b : FreeRect) : xOverlap a b = xOverlap b a := by
  rw [xOverlap, xOverlap, min_comm, max_comm]

/-- yOverlap is symmetric. -/
lemma yOverlap_comm (a b : FreeRect) : yOverlap a b = yOverlap b a := by
  rw [yOverlap, yOverlap, min_comm, max_comm]

/-- slimOverlap is symmetric. -/
lemma slimOverlap_comm {e : ℚ} {a b : FreeRect} (h : slimOverlap e a b) :
    slimOverlap e b a := by
  rcases h with h | h
  · exact Or.inl (xOverlap_comm b a ▸ h)
  · exact Or.inr (yOverlap_comm b a ▸ h)

/-- Shrinking the first rectangle in x cannot increase the x-overlap. -/
lemma xOverlap_mono {a a' b : FreeRect} (h : rectSubX a' a) :
    xOverlap a' b ≤ xOverlap a b := by
  have h1 : min (a'.x + a'.w) (b.x + b.w) ≤ min (a.x + a.w) (b.x + b.w) :=
    min_le_min h.2 le_rfl
  have h2 : max a.x b.x ≤ max a'.x b.x := max_le_max h.1 le_rfl
  rw [xOverlap, xOverlap]
  linarith

/-- Shrinking the first rectangle in y cannot increase the y-overlap. -/
lemma yOverlap_mono {a a' b : FreeRect} (h : rectSubY a' a) :
    yOverlap a' b ≤ yOverlap a b := by
  have h1 : min (a'.y + a'.h) (b.y + b.h) ≤ min (a.y + a.h) (b.y + b.h) :=
    min_le_min h.2 le_rfl
  have h2 : max a.y b.y ≤ max a'.y b.y := max_le_max h.1 le_rfl
  rw [yOverlap, yOverlap]
  linarith

/-- A sub-rectangle inherits slim overlap. -/
lemma slimOverlap_of_sub {e : ℚ} {a a' b : FreeRect}
    (hx : rectSubX a' a) (hy : rectSubY a' a) (h : slimOverlap e a b) :
    slimOverlap e a' b := by
  rcases h with h | h
  · exact Or.inl (le_trans (xOverlap_mono hx) h)
  · exact Or.inr (le_trans (yOverlap_mono hy) h)

/-- A rectangle anchored at the same corner as fr and extending past fr by at
most d in each axis has its overlaps with any b grown by at most d. -/
lemma slimOverlap_of_ext {e d : ℚ} {a fr b : FreeRect}
    (hax : a.x = fr.x) (hay : a.y = fr.y)
    (hw : a.x + a.w ≤ fr.x + fr.w + d) (hh : a.y + a.h ≤ fr.y + fr.h + d)
    (hd : 0 ≤ d) (h : slimOverlap e fr b) : slimOverlap (e + d) a b := by
  rcases h with h | h
  · refine Or.inl ?_
    have h1 : min (a.x + a.w) (b.x + b.w) ≤ min (fr.x + fr.w + d) (b.x + b.w + d) :=
      min_le_min hw (by linarith)
    rw [min_add_add_right] at h1
    have h2 : max fr.x b.x ≤ max a.x b.x := by rw [hax]
    rw [xOverlap] at h ⊢
    linarith
  · refine Or.inr ?_
    have h1 : min (a.y + a.h) (b.y + b.h) ≤ min (fr.y + fr.h + d) (b.y + b.h + d) :=
      min_le_min hh (by linarith)
    rw [min_add_add_right] at h1
    have h2 : max fr.y b.y ≤ max a.y b.y := by rw [hay]
    rw [yOverlap] at h ⊢
    linarith

/-- A false overlap test means the rectangles overlap by at most EPS in one
axis. -/
lemma slim_of_overlap_false {fr used : FreeRect} (h : overlap fr used = false) :
    slimOverlap EPS fr used := by
  rw [overlap] at h
  simp only [Bool.not_eq_false', Bool.or_eq_true, decide_eq_true_eq] at h
  rcases h with ((h | h) | h) | h
  · refine Or.inl ?_
    rw [xOverlap]
    have h1 := min_le_left (fr.x + fr.w) (used.x + used.w)
    have h2 := le_max_right fr.x used.x
    linarith
  · refine Or.inl ?_
    rw [xOverlap]
    have h1 := min_le_right (fr.x + fr.w) (used.x + used.w)
    have h2 := le_max_left fr.x used.x
    linarith
  · refine Or.inr ?_
    rw [yOverlap]
    have h1 := min_le_left (fr.y + fr.h) (used.y + used.h)
    have h2 := le_max_right fr.y used.y
    linarith
  · refine Or.inr ?_
    rw [yOverlap]
    have h1 := min_le_right (fr.y + fr.h) (used.y + used.h)
    have h2 := le_max_left fr.y used.y
    linarith

/-- A true overlap test means strict separation fails in all four
directions. -/
lemma overlap_true_strict {fr used : FreeRect} (h : overlap fr used = true) :
    used.x + EPS < fr.x + fr.w ∧ fr.x + EPS < used.x + used.w ∧
    used.y + EPS < fr.y + fr.h ∧ fr.y + EPS < used.y + used.h := by
  rw [overlap] at h
  simp only [Bool.not_eq_true', Bool.or_eq_false_iff, decide_eq_false_iff_not,
    not_le] at h
  exact ⟨h.1.1.1, h.1.1.2, h.1.2, h.2⟩

/-- Membership in a list guarded by an if with empty else branch. -/
lemma memIteNil {α : Type} {p : Prop} [Decidable p] {a : α} {l : List α} :
    (a ∈ if p then l else []) ↔ p ∧ a ∈ l := by
  split
  · simp [*]
  · simp [*]

/-- Every rectangle emitted by splitOne is a sub-rectangle of the input free
rectangle and overlaps the used box by at most EPS in one axis. -/
lemma splitOne_mem {used fr r : FreeRect} (hr : r ∈ splitOne used fr) :
    rectSubX r fr ∧ rectSubY r fr ∧ slimOverlap EPS r used := by
  cases hov : overlap fr used with
  | false =>
    simp [splitOne, hov] at hr
    subst hr
    exact ⟨⟨le_rfl, le_rfl⟩, ⟨le_rfl, le_rfl⟩, slim_of_overlap_false hov⟩
  | true =>
    rw [splitOne, hov] at hr
    simp only [Bool.not_true, Bool.false_eq_true, if_false] at hr
    obtain ⟨hs1, hs2, hs3, hs4⟩ := overlap_true_strict hov
    by_cases hsl : min (fr.x + fr.w) (used.x + used.w) - max fr.x used.x ≤ EPS ∨
        min (fr.y + fr.h) (used.y + used.h) - max fr.y used.y ≤ EPS
    · rw [if_pos hsl] at hr
      simp only [List.mem_singleton] at hr
      subst hr
      refine ⟨⟨le_rfl, le_rfl⟩, ⟨le_rfl, le_rfl⟩, ?_⟩
      rcases hsl with h | h
      · refine Or.inl ?_
        rw [xOverlap]
        exact h
      · refine Or.inr ?_
        rw [yOverlap]
        exact h
    · rw [if_neg hsl] at hr
      push_neg at hsl
      obtain ⟨hslx, hsly⟩ := hsl
      have hfrw : EPS < fr.w := by
        have h1 := min_le_left (fr.x + fr.w) (used.x + used.w)
        have h2 := le_max_left fr.x used.x
        linarith
      have hfrh : EPS < fr.h := by
        have h1 := min_le_left (fr.y + fr.h) (used.y + used.h)
        have h2 := le_max_left fr.y used.y
        linarith
      have hix_le : max fr.x used.x ≤ fr.x + fr.w :=
        max_le (by linarith [EPS_pos]) (by linarith [EPS_pos])
      have hiy_le : max fr.y used.y ≤ fr.y + fr.h :=
        max_le (by linarith [EPS_pos]) (by linarith [EPS_pos])
      have hix2_ge : fr.x ≤ min (fr.x + fr.w) (used.x + used.w) :=
        le_min (by linarith [EPS_pos]) (by linarith [EPS_pos])
      have hiy2_ge : fr.y ≤ min (fr.y + fr.h) (used.y + used.h) :=
        le_min (by linarith [EPS_pos]) (by linarith [EPS_pos])
      simp only [List.mem_append, memIteNil, List.mem_singleton] at hr
      rcases hr with ((⟨hA, rfl⟩ | ⟨hB, rfl⟩) | ⟨hL, rfl⟩) | ⟨hR, rfl⟩
      · refine ⟨⟨le_rfl, le_rfl⟩, ⟨le_rfl, ?_⟩, Or.inr ?_⟩
        · dsimp only
          linarith
        · rw [yOverlap]
          dsimp only
          linarith [min_le_left (fr.y + (max fr.y used.y - fr.y)) (used.y + used.h),
            EPS_pos]
      · refine ⟨⟨le_rfl, le_rfl⟩, ⟨?_, ?_⟩, Or.inr ?_⟩
        · exact hiy2_ge
        · dsimp only
          linarith
        · rw [yOverlap]
          dsimp only
          have hA1 : min (min (fr.y + fr.h) (used.y + used.h) +
              (fr.y + fr.h - min (fr.y + fr.h) (used.y + used.h))) (used.y + used.h) ≤
              min (fr.y + fr.h) (used.y + used.h) :=
            le_min (by linarith [min_le_left (min (fr.y + fr.h) (used.y + used.h) +
              (fr.y + fr.h - min (fr.y + fr.h) (used.y + used.h))) (used.y + used.h)])
              (min_le_right _ _)
          linarith [hA1, le_max_left (min (fr.y + fr.h) (used.y + used.h)) used.y,
            EPS_pos]
      · refine ⟨⟨le_rfl, ?_⟩, ⟨?_, ?_⟩, Or.inl ?_⟩
        · dsimp only
          linarith
        · exact le_max_left _ _
        · dsimp only
          linarith [min_le_left (fr.y + fr.h) (used.y + used.h)]
        · rw [xOverlap]
          dsimp only
          linarith [min_le_left (fr.x + (max fr.x used.x - fr.x)) (used.x + used.w),
            EPS_pos]
      · refine ⟨⟨?_, ?_⟩, ⟨?_, ?_⟩, Or.inl ?_⟩
        · exact hix2_ge
        · dsimp only
          linarith
        · exact le_max_left _ _
        · dsimp only
          linarith [min_le_left (fr.y + fr.h) (used.y + used.h)]
        · rw [xOverlap]
          dsimp only
          have hA1 : min (min (fr.x + fr.w) (used.x + used.w) +
              (fr.x + fr.w - min (fr.x + fr.w) (used.x + used.w))) (used.x + used.w) ≤
              min (fr.x + fr.w) (used.x + used.w) :=
            le_min (by linarith [min_le_left (min (fr.x + fr.w) (used.x + used.w) +
              (fr.x + fr.w - min (fr.x + fr.w) (used.x + used.w))) (used.x + used.w)])
              (min_le_right _ _)
          linarith [hA1, le_max_left (min (fr.x + fr.w) (used.x + used.w)) used.x,
            EPS_pos]

/-- Second components of an enumerated list are members of the list. -/
lemma enumFrom_snd_mem {α : Type} :
    ∀ (l : List α) (n : ℕ) (p : ℕ × α), p ∈ l.enumFrom n → p.2 ∈ l := by
  intro l
  induction l with
  | nil => intro n p hp; cases hp
  | cons a l ih =>
    intro n p hp
    rw [List.enumFrom_cons] at hp
    rcases List.mem_cons.mp hp with rfl | hp
    · exact List.mem_cons_self a l
    · exact List.mem_cons_of_mem a (ih (n + 1) p hp)

/-- Inversion of a successful fit attempt: the candidate sits at the free
rectangle's corner, keeps the tried orientation and dimensions, and both
padded dimensions fit within EPS. -/
lemma tryFitCand_some {gap : ℚ} {i : ℕ} {fr : FreeRect} {pw ph : ℚ} {rot : Bool}
    {c : Candidate} (h : tryFitCand gap i fr pw ph rot = some c) :
    c.rot = rot ∧ c.x = fr.x ∧ c.y = fr.y ∧ c.w = pw ∧ c.h = ph ∧
      pw + gap ≤ fr.w + EPS ∧ ph + gap ≤ fr.h + EPS := by
  simp only [tryFitCand] at h
  split at h
  · rename_i hcond
    injection h with h
    subst h
    exact ⟨rfl, rfl, rfl, rfl, rfl, hcond.1, hcond.2⟩
  · cases h

/-- Every member of the candidate list comes from some free rectangle, sits at
its corner, carries the part's dimensions per its orientation, and fits within
EPS. -/
lemma candList_mem {part : Part} {free : List FreeRect} {ar : Bool} {gap : ℚ}
    {c : Candidate} (hc : c ∈ candList part free ar gap) :
    ∃ fr ∈ free,
      (c.rot = false ∧ c.w = part.w ∧ c.h = part.h ∨
        c.rot = true ∧ c.w = part.h ∧ c.h = part.w) ∧
      c.x = fr.x ∧ c.y = fr.y ∧ c.w + gap ≤ fr.w + EPS ∧ c.h + gap ≤ fr.h + EPS := by
  rw [candList, List.mem_flatMap] at hc
  obtain ⟨p, hp, hc⟩ := hc
  have hfr : p.2 ∈ free := enumFrom_snd_mem free 0 p hp
  rw [List.mem_append] at hc
  rcases hc with hc | hc
  · rw [Option.mem_toList, Option.mem_def] at hc
    obtain ⟨hrot, hx, hy, hw, hh, h1, h2⟩ := tryFitCand_some hc
    exact ⟨p.2, hfr, Or.inl ⟨hrot, hw, hh⟩, hx, hy, by rw [hw]; exact h1,
      by rw [hh]; exact h2⟩
  · obtain ⟨har, hc⟩ := memIteNil.mp hc
    rw [Option.mem_toList, Option.mem_def] at hc
    obtain ⟨hrot, hx, hy, hw, hh, h1, h2⟩ := tryFitCand_some hc
    exact ⟨p.2, hfr, Or.inr ⟨hrot, hw, hh⟩, hx, hy, by rw [hw]; exact h1,
      by rw [hh]; exact h2⟩

/-- Validity of a chosen candidate: it comes from one of the free rectangles,
at that rectangle's corner, with the part's dimensions per its orientation,
fitting within EPS on both axes. -/
lemma choose_some_valid {part : Part} {free : List FreeRect} {ar : Bool} {gap : ℚ}
    {c : Candidate} (h : chooseMaxRectsPosition part free ar gap = some c) :
    ∃ fr ∈ free,
      (c.rot = false ∧ c.w = part.w ∧ c.h = part.h ∨
        c.rot = true ∧ c.w = part.h ∧ c.h = part.w) ∧
      c.x = fr.x ∧ c.y = fr.y ∧ c.w + gap ≤ fr.w + EPS ∧ c.h + gap ≤ fr.h + EPS := by
  rw [choose_eq_selectBest] at h
  rcases selectBest_spec _ none c h with ⟨ha, _⟩ | ⟨l1, l2, hdec, _, _, _⟩
  · cases ha
  · have hmem : c ∈ candList part free ar gap := by
      rw [hdec]
      exact List.mem_append_right l1 (List.mem_cons_self c l2)
    exact candList_mem hmem

/-- Clipping to the sheet shrinks a rectangle's extents, provided the result
is nondegenerate. -/
lemma clipRect_sub {W H : ℚ} {r : FreeRect}
    (hw : EPS < (clipRect W H r).w) (hh : EPS < (clipRect W H r).h) :
    rectSubX (clipRect W H r) r ∧ rectSubY (clipRect W H r) r := by
  rw [clipRect] at hw hh ⊢
  dsimp only at hw hh ⊢
  constructor
  · refine ⟨le_max_right 0 r.x, ?_⟩
    dsimp only
    rcases le_or_lt (min W (r.x + r.w) - max 0 r.x) 0 with h | h
    · rw [max_eq_left h] at hw
      exact absurd hw (by linarith [EPS_pos])
    · rw [max_eq_right (le_of_lt h)]
      have h2 : min W (r.x + r.w) ≤ r.x + r.w := min_le_right _ _
      linarith
  · refine ⟨le_max_right 0 r.y, ?_⟩
    dsimp only
    rcases le_or_lt (min H (r.y + r.h) - max 0 r.y) 0 with h | h
    · rw [max_eq_left h] at hh
      exact absurd hh (by linarith [EPS_pos])
    · rw [max_eq_right (le_of_lt h)]
      have h2 : min H (r.y + r.h) ≤ r.y + r.h := min_le_right _ _
      linarith

/-- Every output rectangle of splitFreeRects is nondegenerate, lies inside one
of the input free rectangles, and overlaps the used box by at most EPS in one
axis. -/
lemma splitFreeRects_mem {free : List FreeRect} {used : FreeRect} {W H : ℚ}
    {r : FreeRect} (hr : r ∈ splitFreeRects free used W H) :
    EPS < r.w ∧ EPS < r.h ∧
      ∃ fr ∈ free, rectSubX r fr ∧ rectSubY r fr ∧ slimOverlap EPS r used := by
  rw [splitFreeRects, List.mem_filter] at hr
  obtain ⟨hmem, hcond⟩ := hr
  simp only [Bool.and_eq_true, decide_eq_true_eq, gt_iff_lt] at hcond
  rw [List.mem_map] at hmem
  obtain ⟨r0, hr0, rfl⟩ := hmem
  rw [List.mem_flatMap] at hr0
  obtain ⟨fr, hfr, hr0⟩ := hr0
  obtain ⟨hsx, hsy, hslim⟩ := splitOne_mem hr0
  obtain ⟨hcx, hcy⟩ := clipRect_sub hcond.1 hcond.2
  exact ⟨hcond.1, hcond.2, fr, hfr,
    ⟨le_trans hsx.1 hcx.1, le_trans hcx.2 hsx.2⟩,
    ⟨le_trans hsy.1 hcy.1, le_trans hcy.2 hsy.2⟩,
    slimOverlap_of_sub hcx hcy hslim⟩

/-- Pruning only removes rectangles. -/
lemma pruneFreeRects_subset {free : List FreeRect} {r : FreeRect}
    (hr : r ∈ pruneFreeRects free) : r ∈ free := by
  rw [pruneFreeRects, List.mem_map] at hr
  obtain ⟨p, hp, rfl⟩ := hr
  exact enumFrom_snd_mem free 0 p (List.mem_filter.mp hp).1

/-- Invariant of the per-sheet placement loop: if every free rectangle
overlaps every already-placed padded box by at most EPS in one axis, then all
newly produced padded boxes overlap the old ones, and each other, by at most
2·EPS in one axis. -/
lemma packSheetGo_slim (w h : ℚ) (ar : Bool) (gap : ℚ) :
    ∀ (parts : List Part) (free boxes : List FreeRect),
      (∀ F ∈ free, ∀ B ∈ boxes, slimOverlap EPS F B) →
      (∀ B ∈ boxes, ∀ N ∈ (packSheetGo w h ar gap parts free).1.map (placementBox gap),
        slimOverlap (EPS + EPS) B N) ∧
      ((packSheetGo w h ar gap parts free).1.map (placementBox gap)).Pairwise
        (slimOverlap (EPS + EPS)) := by
  intro parts
  induction parts with
  | nil =>
    intro free boxes hInv
    exact ⟨fun B hB N hN => absurd hN (List.not_mem_nil N), List.Pairwise.nil⟩
  | cons part rest ih =>
    intro free boxes hInv
    rw [packSheetGo]
    rcases hch : chooseMaxRectsPosition part free ar gap with _ | cand
    · simp only
      exact ih free boxes hInv
    · simp only [List.map_cons]
      obtain ⟨fr, hfr, hor, hx, hy, hfit1, hfit2⟩ := choose_some_valid hch
      have hpb : placementBox gap ⟨part, cand.x, cand.y, cand.rot⟩ =
          ⟨cand.x, cand.y, (if cand.rot then part.h else part.w) + gap,
            (if cand.rot then part.w else part.h) + gap⟩ := rfl
      rw [hpb]
      set NB : FreeRect := ⟨cand.x, cand.y, (if cand.rot then part.h else part.w) + gap,
        (if cand.rot then part.w else part.h) + gap⟩ with hNBdef
      have hw1 : NB.x + NB.w ≤ fr.x + fr.w + EPS := by
        rw [hNBdef]
        dsimp only
        rcases hor with ⟨hr, hcw, hchh⟩ | ⟨hr, hcw, hchh⟩
        · rw [hr]
          simp only [Bool.false_eq_true, if_false]
          rw [← hcw]
          linarith [hfit1]
        · rw [hr]
          simp only [if_true]
          rw [← hcw]
          linarith [hfit1]
      have hh1 : NB.y + NB.h ≤ fr.y + fr.h + EPS := by
        rw [hNBdef]
        dsimp only
        rcases hor with ⟨hr, hcw, hchh⟩ | ⟨hr, hcw, hchh⟩
        · rw [hr]
          simp only [Bool.false_eq_true, if_false]
          rw [← hchh]
          linarith [hfit2]
        · rw [hr]
          simp only [if_true]
          rw [← hchh]
          linarith [hfit2]
      have hNx : NB.x = fr.x := hx
      have hNy : NB.y = fr.y := hy
      have hNboxes : ∀ B ∈ boxes, slimOverlap (EPS + EPS) NB B :=
        fun B hB => slimOverlap_of_ext hNx hNy hw1 hh1 (le_of_lt EPS_pos) (hInv fr hfr B hB)
      have hInv2 : ∀ F ∈ pruneFreeRects (splitFreeRects free NB w h),
          ∀ B ∈ NB :: boxes, slimOverlap EPS F B := by
        intro F hF B hB
        obtain ⟨hFw, hFh, fr2, hfr2, hsx, hsy, hslim⟩ :=
          splitFreeRects_mem (pruneFreeRects_subset hF)
        rcases List.mem_cons.mp hB with rfl | hB
        · exact hslim
        · exact slimOverlap_of_sub hsx hsy (hInv fr2 hfr2 B hB)
      obtain ⟨ihA, ihP⟩ := ih (pruneFreeRects (splitFreeRects free NB w h)) (NB :: boxes) hInv2
      constructor
      · intro B hB N hN
        rcases List.mem_cons.mp hN with rfl | hN
        · exact slimOverlap_comm (hNboxes B hB)
        · exact ihA B (List.mem_cons_of_mem NB hB) N hN
      · refine List.Pairwise.cons ?_ ihP
        intro N hN
        exact ihA NB (List.mem_cons_self NB boxes) N hN

/-- All padded boxes placed on one sheet pairwise overlap by at most 2·EPS in
one axis. -/
lemma packSheet_slim (partsIn : List Part) (w h : ℚ) (ar : Bool) (gap : ℚ) :
    ((packSheet partsIn w h ar gap).1.map (placementBox gap)).Pairwise
      (slimOverlap (EPS + EPS)) := by
  rw [packSheet]
  exact (packSheetGo_slim w h ar gap (partsIn.mergeSort partSortLe) [⟨0, 0, w, h⟩] []
    (fun F hF B hB => absurd hB (List.not_mem_nil B))).2

/-- A universally true relation is pairwise on every list. -/
lemma pairwise_of_true {α : Type} {R : α → α → Prop} (h : ∀ a b, R a b) :
    ∀ (l : List α), l.Pairwise R
  | [] => List.Pairwise.nil
  | a :: l => List.Pairwise.cons (fun b _ => h a b) (pairwise_of_true h l)

/-- Every output of the multi-sheet loop carries either the -1 sentinel index
or a sheet index at least the starting one. -/
lemma packGo_sheetIndex (g : Globals) :
    ∀ (fuel : ℕ) (parts : List Part) (si : ℤ) (q : PlacedPart),
      q ∈ packGo g fuel parts si → q.sheetIndex = -1 ∨ si ≤ q.sheetIndex := by
  intro fuel
  induction fuel with
  | zero =>
    intro parts si q hq
    cases parts with
    | nil => cases hq
    | cons p rest =>
      rw [show packGo g 0 (p :: rest) si = (p :: rest).map mkSentinel from rfl] at hq
      obtain ⟨p0, hp0, rfl⟩ := List.mem_map.mp hq
      exact Or.inl rfl
  | succ fuel ih =>
    intro parts si q hq
    cases parts with
    | nil => cases hq
    | cons p rest =>
      rw [packGo_succ_cons] at hq
      by_cases hemp : ((packSheet (p :: rest) (g.sheet_w - 2 * g.margin)
          (g.sheet_h - 2 * g.margin) g.allow_rotation g.part_gap).1).isEmpty
      · rw [if_pos hemp] at hq
        obtain ⟨p0, hp0, rfl⟩ := List.mem_map.mp hq
        exact Or.inl rfl
      · rw [if_neg hemp] at hq
        rcases List.mem_append.mp hq with hq | hq
        · obtain ⟨pl, hpl, rfl⟩ := List.mem_map.mp hq
          exact Or.inr le_rfl
        · rcases ih _ (si + 1) q hq with h | h
          · exact Or.inl h
          · exact Or.inr (by omega)

/-- Moving a placement into sheet coordinates translates its padded box by the
margin. -/
lemma placedBox_mkPlacedOnSheet (gap m : ℚ) (si : ℤ) (pl : SheetPlacement) :
    placedBox gap (mkPlacedOnSheet m si pl) =
      ⟨(placementBox gap pl).x + m, (placementBox gap pl).y + m,
        (placementBox gap pl).w, (placementBox gap pl).h⟩ := rfl

/-- slimOverlap is invariant under a common translation. -/
lemma slimOverlap_translate {e : ℚ} {a b : FreeRect} (d : ℚ)
    (h : slimOverlap e a b) :
    slimOverlap e ⟨a.x + d, a.y + d, a.w, a.h⟩ ⟨b.x + d, b.y + d, b.w, b.h⟩ := by
  rcases h with h | h
  · refine Or.inl ?_
    rw [xOverlap] at h ⊢
    dsimp only
    rw [show a.x + d + a.w = a.x + a.w + d from by ring,
      show b.x + d + b.w = b.x + b.w + d from by ring,
      min_add_add_right, max_add_add_right]
    linarith
  · refine Or.inr ?_
    rw [yOverlap] at h ⊢
    dsimp only
    rw [show a.y + d + a.h = a.y + a.h + d from by ring,
      show b.y + d + b.h = b.y + b.h + d from by ring,
      min_add_add_right, max_add_add_right]
    linarith

/-- Within every sheet produced by the multi-sheet loop, padded boxes pairwise
overlap by at most EPS + EPS in one axis. -/
lemma packGo_slim (g : Globals) :
    ∀ (fuel : ℕ) (parts : List Part) (si : ℤ),
      (packGo g fuel parts si).Pairwise (fun p q =>
        p.sheetIndex = q.sheetIndex → p.sheetIndex ≠ -1 →
          slimOverlap (EPS + EPS) (placedBox g.part_gap p) (placedBox g.part_gap q)) := by
  intro fuel
  induction fuel with
  | zero =>
    intro parts si
    cases parts with
    | nil => exact List.Pairwise.nil
    | cons p rest =>
      rw [show packGo g 0 (p :: rest) si = (p :: rest).map mkSentinel from rfl]
      refine List.pairwise_map.mpr ?_
      exact pairwise_of_true (fun a b heq hne => absurd rfl hne) _
  | succ fuel ih =>
    intro parts si
    cases parts with
    | nil => exact List.Pairwise.nil
    | cons p rest =>
      rw [packGo_succ_cons]
      by_cases hemp : ((packSheet (p :: rest) (g.sheet_w - 2 * g.margin)
          (g.sheet_h - 2 * g.margin) g.allow_rotation g.part_gap).1).isEmpty
      · rw [if_pos hemp]
        refine List.pairwise_map.mpr ?_
        exact pairwise_of_true (fun a b heq hne => absurd rfl hne) _
      · rw [if_neg hemp]
        rw [List.pairwise_append]
        refine ⟨?_, ih _ (si + 1), ?_⟩
        · have hps := packSheet_slim (p :: rest) (g.sheet_w - 2 * g.margin)
            (g.sheet_h - 2 * g.margin) g.allow_rotation g.part_gap
          rw [List.pairwise_map] at hps
          rw [List.pairwise_map]
          refine hps.imp ?_
          intro pl pl2 hslim heq hne
          rw [placedBox_mkPlacedOnSheet, placedBox_mkPlacedOnSheet]
          exact slimOverlap_translate g.margin hslim
        · intro q1 hq1 q2 hq2 heq hne
          obtain ⟨pl, hpl, rfl⟩ := List.mem_map.mp hq1
          have h1 : (mkPlacedOnSheet g.margin si pl).sheetIndex = si := rfl
          rcases packGo_sheetIndex g fuel _ (si + 1) q2 hq2 with h | h
          · exfalso
            rw [h1] at heq hne
            omega
          · exfalso
            rw [h1] at heq hne
            omega

/-- C2: amended no-overlap guarantee of the packer. The EPS = 1e-6 tolerances
let padded boxes genuinely overlap (pack_C2_counterexample), but any two parts
placed on the same sheet have gap-padded boxes whose overlap depth is at most
2·EPS in at least one axis. -/
theorem pack_C2 (parts : List Part) (g : Globals) (off : ℤ) :
    (pack parts g off).Pairwise (fun p q =>
      p.sheetIndex = q.sheetIndex → p.sheetIndex ≠ -1 →
        slimOverlap (2 * EPS) (placedBox g.part_gap p) (placedBox g.part_gap q)) := by
  rw [pack]
  refine (packGo_slim g (parts.length + 1) parts off).imp ?_
  intro p q hf heq hne
  rw [two_mul]
  exact hf heq hne

/-- C2 counterexample to the literal claim: a five-part packing in which the
parts placed third and fifth land on the same sheet with gap-padded boxes that
overlap with positive depth in both axes (the claim asserts open-interval
disjointness). -/
theorem pack_C2_counterexample :
    (pack c2parts c2Globals 0).length = 5 ∧
    ((pack c2parts c2Globals 0).getD 2 (mkSentinel defaultPart)).sheetIndex = 0 ∧
    ((pack c2parts c2Globals 0).getD 4 (mkSentinel defaultPart)).sheetIndex = 0 ∧
    ((pack c2parts c2Globals 0).getD 2 (mkSentinel defaultPart)).part.uid = "A" ∧
    ((pack c2parts c2Globals 0).getD 4 (mkSentinel defaultPart)).part.uid = "C2" ∧
    ¬ paddedBoxesDisjoint c2Globals.part_gap
        ((pack c2parts c2Globals 0).getD 2 (mkSentinel defaultPart))
        ((pack c2parts c2Globals 0).getD 4 (mkSentinel defaultPart)) := by
  with_unfolding_all decide

/-- Witness for pack_C2 at the concrete five-part input of the
counterexample. -/
theorem pack_C2_witness :
    (pack c2parts c2Globals 0).Pairwise (fun p q =>
      p.sheetIndex = q.sheetIndex → p.sheetIndex ≠ -1 →
        slimOverlap (2 * EPS) (placedBox c2Globals.part_gap p)
          (placedBox c2Globals.part_gap q)) :=
  pack_C2 c2parts c2Globals 0

/-! ## Claim C9 -/

/-- Point membership is monotone along rectangle inclusion. -/
lemma ptIn_of_sub {a b : FreeRect} {px py : ℚ} (hx : rectSubX a b) (hy : rectSubY a b)
    (h : ptIn a px py) : ptIn b px py := by
  rw [ptIn] at h ⊢
  obtain ⟨h1, h2, h3, h4⟩ := h
  exact ⟨le_trans hx.1 h1, lt_of_lt_of_le h2 hx.2, le_trans hy.1 h3,
    lt_of_lt_of_le h4 hy.2⟩

/-- Two rectangles sharing a point overlap with positive depth in both axes. -/
lemma ptIn_both_overlap_pos {a b : FreeRect} {px py : ℚ}
    (ha : ptIn a px py) (hb : ptIn b px py) :
    0 < xOverlap a b ∧ 0 < yOverlap a b := by
  rw [ptIn] at ha hb
  constructor
  · rw [xOverlap]
    have h1 : px < min (a.x + a.w) (b.x + b.w) := lt_min ha.2.1 hb.2.1
    have h2 : max a.x b.x ≤ px := max_le ha.1 hb.1
    linarith
  · rw [yOverlap]
    have h1 : py < min (a.y + a.h) (b.y + b.h) := lt_min ha.2.2.2 hb.2.2.2
    have h2 : max a.y b.y ≤ py := max_le ha.2.2.1 hb.2.2.1
    linarith

/-- Clipping is the identity on a rectangle already inside the sheet. -/
lemma clipRect_id {W H : ℚ} {r : FreeRect} (h1 : 0 ≤ r.x) (h2 : 0 ≤ r.y)
    (h3 : r.x + r.w ≤ W) (h4 : r.y + r.h ≤ H) (h5 : 0 ≤ r.w) (h6 : 0 ≤ r.h) :
    clipRect W H r = r := by
  rw [clipRect]
  rw [max_eq_right h1, max_eq_right h2, min_eq_right h3, min_eq_right h4]
  rw [show r.x + r.w - r.x = r.w from by ring, show r.y + r.h - r.y = r.h from by ring]
  rw [max_eq_right h5, max_eq_right h6]

/-- Every splitOne output is either the kept-whole input (with an
EPS-shallow overlap with the used box) or a residue touching the used box
with nonpositive depth in one axis. -/
lemma splitOne_mem_or {used fr r : FreeRect} (hr : r ∈ splitOne used fr) :
    (r = fr ∧ (xOverlap fr used ≤ EPS ∨ yOverlap fr used ≤ EPS)) ∨
    xOverlap r used ≤ 0 ∨ yOverlap r used ≤ 0 := by
  cases hov : overlap fr used with
  | false =>
    simp [splitOne, hov] at hr
    subst hr
    exact Or.inl ⟨rfl, slim_of_overlap_false hov⟩
  | true =>
    rw [splitOne, hov] at hr
    simp only [Bool.not_true, Bool.false_eq_true, if_false] at hr
    by_cases hsl : min (fr.x + fr.w) (used.x + used.w) - max fr.x used.x ≤ EPS ∨
        min (fr.y + fr.h) (used.y + used.h) - max fr.y used.y ≤ EPS
    · rw [if_pos hsl] at hr
      simp only [List.mem_singleton] at hr
      subst hr
      refine Or.inl ⟨rfl, ?_⟩
      rcases hsl with h | h
      · exact Or.inl (by rw [xOverlap]; exact h)
      · exact Or.inr (by rw [yOverlap]; exact h)
    · rw [if_neg hsl] at hr
      simp only [List.mem_append, memIteNil, List.mem_singleton] at hr
      rcases hr with ((⟨hA, rfl⟩ | ⟨hB, rfl⟩) | ⟨hL, rfl⟩) | ⟨hR, rfl⟩
      · refine Or.inr (Or.inr ?_)
        rw [yOverlap]
        dsimp only
        linarith [min_le_left (fr.y + (max fr.y used.y - fr.y)) (used.y + used.h)]
      · refine Or.inr (Or.inr ?_)
        rw [yOverlap]
        dsimp only
        have hA1 : min (min (fr.y + fr.h) (used.y + used.h) +
            (fr.y + fr.h - min (fr.y + fr.h) (used.y + used.h))) (used.y + used.h) ≤
            min (fr.y + fr.h) (used.y + used.h) :=
          le_min (by linarith [min_le_left (min (fr.y + fr.h) (used.y + used.h) +
            (fr.y + fr.h - min (fr.y + fr.h) (used.y + used.h))) (used.y + used.h)])
            (min_le_right _ _)
        linarith [hA1, le_max_left (min (fr.y + fr.h) (used.y + used.h)) used.y]
      · refine Or.inr (Or.inl ?_)
        rw [xOverlap]
        dsimp only
        linarith [min_le_left (fr.x + (max fr.x used.x - fr.x)) (used.x + used.w)]
      · refine Or.inr (Or.inl ?_)
        rw [xOverlap]
        dsimp only
        have hA1 : min (min (fr.x + fr.w) (used.x + used.w) +
            (fr.x + fr.w - min (fr.x + fr.w) (used.x + used.w))) (used.x + used.w) ≤
            min (fr.x + fr.w) (used.x + used.w) :=
          le_min (by linarith [min_le_left (min (fr.x + fr.w) (used.x + used.w) +
            (fr.x + fr.w - min (fr.x + fr.w) (used.x + used.w))) (used.x + used.w)])
            (min_le_right _ _)
        linarith [hA1, le_max_left (min (fr.x + fr.w) (used.x + used.w)) used.x]

/-- Membership characterization of splitOne's residue branch. -/
lemma splitOne_mem_iff (used fr r0 : FreeRect) (hov : overlap fr used = true)
    (hnsx : EPS < min (fr.x + fr.w) (used.x + used.w) - max fr.x used.x)
    (hnsy : EPS < min (fr.y + fr.h) (used.y + used.h) - max fr.y used.y) :
    r0 ∈ splitOne used fr ↔
      (((EPS < max fr.y used.y - fr.y ∧
          r0 = ⟨fr.x, fr.y, fr.w, max fr.y used.y - fr.y⟩) ∨
        (EPS < fr.y + fr.h - min (fr.y + fr.h) (used.y + used.h) ∧
          r0 = ⟨fr.x, min (fr.y + fr.h) (used.y + used.h), fr.w,
            fr.y + fr.h - min (fr.y + fr.h) (used.y + used.h)⟩)) ∨
       (EPS < max fr.x used.x - fr.x ∧
          r0 = ⟨fr.x, max fr.y used.y, max fr.x used.x - fr.x,
            min (fr.y + fr.h) (used.y + used.h) - max fr.y used.y⟩)) ∨
      (EPS < fr.x + fr.w - min (fr.x + fr.w) (used.x + used.w) ∧
        r0 = ⟨min (fr.x + fr.w) (used.x + used.w), max fr.y used.y,
          fr.x + fr.w - min (fr.x + fr.w) (used.x + used.w),
          min (fr.y + fr.h) (used.y + used.h) - max fr.y used.y⟩) := by
  rw [splitOne, hov]
  simp only [Bool.not_true, Bool.false_eq_true, if_false]
  rw [if_neg (by push_neg; exact ⟨hnsx, hnsy⟩)]
  simp only [List.mem_append, memIteNil, List.mem_singleton, gt_iff_lt]

/-- One split step is exact on point sets under splitStepExact: the processed
outputs of one free rectangle cover exactly its area outside the used box. -/
lemma splitOne_union {W H : ℚ} {used fr : FreeRect} (hex : splitStepExact W H used fr)
    (px py : ℚ) :
    (∃ r0 ∈ splitOne used fr, EPS < (clipRect W H r0).w ∧ EPS < (clipRect W H r0).h ∧
        ptIn (clipRect W H r0) px py) ↔
      ptIn fr px py ∧ ¬ ptIn used px py := by
  rw [splitStepExact] at hex
  obtain ⟨hxo, hyo, hg1, hg2, hg3, hg4, hx0, hy0, hxW, hyH, hfw, hfh⟩ := hex
  have hfw0 : (0 : ℚ) ≤ fr.w := le_of_lt (lt_trans EPS_pos hfw)
  have hfh0 : (0 : ℚ) ≤ fr.h := le_of_lt (lt_trans EPS_pos hfh)
  have hclipfr : clipRect W H fr = fr := clipRect_id hx0 hy0 hxW hyH hfw0 hfh0
  by_cases hthin : xOverlap fr used ≤ 0 ∨ yOverlap fr used ≤ 0
  · have hout : splitOne used fr = [fr] := by
      rw [splitOne]
      by_cases hov : overlap fr used
      · have hcond : min (fr.x + fr.w) (used.x + used.w) - max fr.x used.x ≤ EPS ∨
            min (fr.y + fr.h) (used.y + used.h) - max fr.y used.y ≤ EPS := by
          rcases hthin with h | h
          · rw [xOverlap] at h
            exact Or.inl (by linarith [EPS_pos])
          · rw [yOverlap] at h
            exact Or.inr (by linarith [EPS_pos])
        rw [if_neg (by simp [hov]), if_pos hcond]
      · rw [if_pos (by simp [hov])]
    rw [hout]
    constructor
    · rintro ⟨r0, hr0, hw2, hh2, hpt⟩
      rw [List.mem_singleton] at hr0
      subst hr0
      rw [hclipfr] at hpt
      refine ⟨hpt, fun hused => ?_⟩
      obtain ⟨hxp, hyp⟩ := ptIn_both_overlap_pos hpt hused
      rcases hthin with h | h <;> linarith
    · rintro ⟨hpt, hused⟩
      refine ⟨fr, List.mem_singleton.mpr rfl, ?_, ?_, ?_⟩
      · rw [hclipfr]
        exact hfw
      · rw [hclipfr]
        exact hfh
      · rw [hclipfr]
        exact hpt
  · push_neg at hthin
    obtain ⟨hxop, hyop⟩ := hthin
    have hxpos : EPS < xOverlap fr used := by
      rcases hxo with h | h
      · linarith
      · exact h
    have hypos : EPS < yOverlap fr used := by
      rcases hyo with h | h
      · linarith
      · exact h
    have hxpos2 : EPS < min (fr.x + fr.w) (used.x + used.w) - max fr.x used.x := by
      rw [xOverlap] at hxpos
      exact hxpos
    have hypos2 : EPS < min (fr.y + fr.h) (used.y + used.h) - max fr.y used.y := by
      rw [yOverlap] at hypos
      exact hypos
    have hov : overlap fr used = true := by
      cases hbe : overlap fr used
      · rcases slim_of_overlap_false hbe with h | h
        · linarith
        · linarith
      · rfl
    obtain ⟨hs1, hs2, hs3, hs4⟩ := overlap_true_strict hov
    have hiy_le : max fr.y used.y ≤ fr.y + fr.h :=
      max_le (by linarith) (by linarith [EPS_pos])
    have hix_le : max fr.x used.x ≤ fr.x + fr.w :=
      max_le (by linarith) (by linarith [EPS_pos])
    have hix2_ge : fr.x ≤ min (fr.x + fr.w) (used.x + used.w) :=
      le_min (by linarith) (by linarith [EPS_pos])
    have hiy2_ge : fr.y ≤ min (fr.y + fr.h) (used.y + used.h) :=
      le_min (by linarith) (by linarith [EPS_pos])
    constructor
    · rintro ⟨r0, hr0, hw2, hh2, hptc⟩
      obtain ⟨hsx, hsy, _⟩ := splitOne_mem hr0
      obtain ⟨hcx, hcy⟩ := clipRect_sub hw2 hh2
      have hpt0 : ptIn r0 px py := ptIn_of_sub hcx hcy hptc
      refine ⟨ptIn_of_sub hsx hsy hpt0, fun hused => ?_⟩
      rcases splitOne_mem_or hr0 with ⟨heq, hsl⟩ | hneg
      · rcases hsl with h | h
        · linarith
        · linarith
      · obtain ⟨hxp2, hyp2⟩ := ptIn_both_overlap_pos hpt0 hused
        rcases hneg with h | h
        · linarith
        · linarith
    · rintro ⟨hpt, hused⟩
      rw [ptIn] at hpt
      obtain ⟨hp1, hp2, hp3, hp4⟩ := hpt
      rcases lt_or_le py (max fr.y used.y) with hcA | hcA
      · have hgA : EPS < max fr.y used.y - fr.y := by
          rcases hg1 with h | h
          · linarith
          · exact h
        refine ⟨⟨fr.x, fr.y, fr.w, max fr.y used.y - fr.y⟩,
          (splitOne_mem_iff used fr _ hov hxpos2 hypos2).mpr
            (Or.inl (Or.inl (Or.inl ⟨hgA, rfl⟩))), ?_⟩
        have hcl : clipRect W H ⟨fr.x, fr.y, fr.w, max fr.y used.y - fr.y⟩ =
            ⟨fr.x, fr.y, fr.w, max fr.y used.y - fr.y⟩ :=
          clipRect_id hx0 hy0 hxW (by dsimp only; linarith) hfw0
            (by dsimp only; linarith [EPS_pos])
        rw [hcl]
        refine ⟨hfw, hgA, ?_⟩
        rw [ptIn]
        dsimp only
        exact ⟨hp1, hp2, hp3, by linarith⟩
      · rcases le_or_lt (min (fr.y + fr.h) (used.y + used.h)) py with hcB | hcB
        · have hgB : EPS < fr.y + fr.h - min (fr.y + fr.h) (used.y + used.h) := by
            rcases hg2 with h | h
            · linarith
            · exact h
          refine ⟨⟨fr.x, min (fr.y + fr.h) (used.y + used.h), fr.w,
              fr.y + fr.h - min (fr.y + fr.h) (used.y + used.h)⟩,
            (splitOne_mem_iff used fr _ hov hxpos2 hypos2).mpr
              (Or.inl (Or.inl (Or.inr ⟨hgB, rfl⟩))), ?_⟩
          have hcl : clipRect W H ⟨fr.x, min (fr.y + fr.h) (used.y + used.h), fr.w,
              fr.y + fr.h - min (fr.y + fr.h) (used.y + used.h)⟩ =
              ⟨fr.x, min (fr.y + fr.h) (used.y + used.h), fr.w,
                fr.y + fr.h - min (fr.y + fr.h) (used.y + used.h)⟩ :=
            clipRect_id hx0 (by dsimp only; linarith) hxW (by dsimp only; linarith)
              hfw0 (by dsimp only; linarith [EPS_pos])
          rw [hcl]
          refine ⟨hfw, hgB, ?_⟩
          rw [ptIn]
          dsimp only
          exact ⟨hp1, hp2, hcB, by linarith⟩
        · have hu1y : used.y ≤ py := le_trans (le_max_right fr.y used.y) hcA
          have hu2y : py < used.y + used.h :=
            lt_of_lt_of_le hcB (min_le_right _ _)
          rcases le_or_lt used.x px with hxc | hxc
          · have hxc2 : used.x + used.w ≤ px := by
              by_contra hlt
              push_neg at hlt
              exact hused (by rw [ptIn]; exact ⟨hxc, hlt, hu1y, hu2y⟩)
            have hgR : EPS < fr.x + fr.w - min (fr.x + fr.w) (used.x + used.w) := by
              rcases hg4 with h | h
              · exfalso
                have h2 := min_le_right (fr.x + fr.w) (used.x + used.w)
                linarith
              · exact h
            refine ⟨⟨min (fr.x + fr.w) (used.x + used.w), max fr.y used.y,
                fr.x + fr.w - min (fr.x + fr.w) (used.x + used.w),
                min (fr.y + fr.h) (used.y + used.h) - max fr.y used.y⟩,
              (splitOne_mem_iff used fr _ hov hxpos2 hypos2).mpr
                (Or.inr ⟨hgR, rfl⟩), ?_⟩
            have hcl : clipRect W H ⟨min (fr.x + fr.w) (used.x + used.w),
                max fr.y used.y, fr.x + fr.w - min (fr.x + fr.w) (used.x + used.w),
                min (fr.y + fr.h) (used.y + used.h) - max fr.y used.y⟩ =
                ⟨min (fr.x + fr.w) (used.x + used.w), max fr.y used.y,
                  fr.x + fr.w - min (fr.x + fr.w) (used.x + used.w),
                  min (fr.y + fr.h) (used.y + used.h) - max fr.y used.y⟩ :=
              clipRect_id (by dsimp only; linarith)
                (by dsimp only; linarith [le_max_left fr.y used.y])
                (by dsimp only; linarith)
                (by dsimp only; linarith [min_le_left (fr.y + fr.h) (used.y + used.h)])
                (by dsimp only; linarith [EPS_pos])
                (by dsimp only; linarith [EPS_pos])
            rw [hcl]
            refine ⟨hgR, hypos2, ?_⟩
            rw [ptIn]
            dsimp only
            have hm : min (fr.x + fr.w) (used.x + used.w) ≤ px :=
              le_trans (min_le_right _ _) hxc2
            exact ⟨hm, by linarith, hcA, by linarith⟩
          · have hgL : EPS < max fr.x used.x - fr.x := by
              rcases hg3 with h | h
              · exfalso
                have h2 := le_max_right fr.x used.x
                linarith
              · exact h
            refine ⟨⟨fr.x, max fr.y used.y, max fr.x used.x - fr.x,
                min (fr.y + fr.h) (used.y + used.h) - max fr.y used.y⟩,
              (splitOne_mem_iff used fr _ hov hxpos2 hypos2).mpr
                (Or.inl (Or.inr ⟨hgL, rfl⟩)), ?_⟩
            have hcl : clipRect W H ⟨fr.x, max fr.y used.y, max fr.x used.x - fr.x,
                min (fr.y + fr.h) (used.y + used.h) - max fr.y used.y⟩ =
                ⟨fr.x, max fr.y used.y, max fr.x used.x - fr.x,
                  min (fr.y + fr.h) (used.y + used.h) - max fr.y used.y⟩ :=
              clipRect_id hx0 (by dsimp only; linarith [le_max_left fr.y used.y])
                (by dsimp only; linarith)
                (by dsimp only; linarith [min_le_left (fr.y + fr.h) (used.y + used.h)])
                (by dsimp only; linarith [EPS_pos])
                (by dsimp only; linarith [EPS_pos])
            rw [hcl]
            refine ⟨hgL, hypos2, ?_⟩
            rw [ptIn]
            dsimp only
            have hm : px < fr.x + (max fr.x used.x - fr.x) := by
              have h2 := le_max_right fr.x used.x
              linarith
            exact ⟨hp1, hm, hcA, by linarith⟩

/-- C9: amended free-area invariant. The EPS guards make the literal claim
false (splitFreeRects_C9_counterexample), but when every overlap and residual
extent of a split step is either empty or strictly beyond EPS (splitStepExact)
one split step is exact: the union of the produced free rectangles is exactly
the union of the old ones minus the used box; and pruning only ever shrinks
the union. -/
theorem splitFreeRects_C9 (free : List FreeRect) (used : FreeRect) (W H : ℚ)
    (hex : ∀ fr ∈ free, splitStepExact W H used fr) (px py : ℚ) :
    (inUnion (splitFreeRects free used W H) px py ↔
      inUnion free px py ∧ ¬ ptIn used px py) ∧
    ∀ l : List FreeRect, inUnion (pruneFreeRects l) px py → inUnion l px py := by
  constructor
  · constructor
    · rintro ⟨r, hr, hpt⟩
      rw [splitFreeRects, List.mem_filter] at hr
      obtain ⟨hmem, hcond⟩ := hr
      simp only [Bool.and_eq_true, decide_eq_true_eq, gt_iff_lt] at hcond
      rw [List.mem_map] at hmem
      obtain ⟨r0, hr0, rfl⟩ := hmem
      rw [List.mem_flatMap] at hr0
      obtain ⟨fr, hfr, hr0⟩ := hr0
      have h := (splitOne_union (hex fr hfr) px py).mp ⟨r0, hr0, hcond.1, hcond.2, hpt⟩
      exact ⟨⟨fr, hfr, h.1⟩, h.2⟩
    · rintro ⟨⟨fr, hfr, hpt⟩, hused⟩
      obtain ⟨r0, hr0, hw2, hh2, hptc⟩ :=
        (splitOne_union (hex fr hfr) px py).mpr ⟨hpt, hused⟩
      refine ⟨clipRect W H r0, ?_, hptc⟩
      rw [splitFreeRects, List.mem_filter]
      refine ⟨List.mem_map_of_mem _ (List.mem_flatMap.mpr ⟨fr, hfr, hr0⟩), ?_⟩
      simp only [Bool.and_eq_true, decide_eq_true_eq, gt_iff_lt]
      exact ⟨hw2, hh2⟩
  · rintro l ⟨r, hr, hpt⟩
    exact ⟨r, pruneFreeRects_subset hr, hpt⟩

/-- C9 counterexample to the literal claim: a used box 5e-7 short of the free
rectangle's right edge makes splitFreeRects drop the genuine free sliver
beyond it entirely, so the union shrinks past the true free area; and pruning
a duplicated rectangle removes both copies, also changing the union. -/
theorem splitFreeRects_C9_counterexample :
    splitFreeRects [⟨0, 0, 10, 10⟩] ⟨0, 0, 19999999 / 2000000, 10⟩ 10 10 = [] ∧
    inUnion [⟨0, 0, 10, 10⟩] (39999999 / 4000000) 5 ∧
    ¬ ptIn ⟨0, 0, 19999999 / 2000000, 10⟩ (39999999 / 4000000) 5 ∧
    pruneFreeRects [⟨0, 0, 5, 5⟩, ⟨0, 0, 5, 5⟩] = [] ∧
    inUnion [⟨0, 0, 5, 5⟩, ⟨0, 0, 5, 5⟩] 1 1 := by
  with_unfolding_all decide

/-- Witness for splitFreeRects_C9 at a concrete exact split: a 4-wide used box
carved out of a 10 by 10 free rectangle. -/
theorem splitFreeRects_C9_witness :
    (inUnion (splitFreeRects [⟨0, 0, 10, 10⟩] ⟨0, 0, 4, 10⟩ 10 10) 5 5 ↔
      inUnion [⟨0, 0, 10, 10⟩] 5 5 ∧ ¬ ptIn ⟨0, 0, 4, 10⟩ 5 5) ∧
    ∀ l : List FreeRect, inUnion (pruneFreeRects l) 5 5 → inUnion l 5 5 :=
  splitFreeRects_C9 [⟨0, 0, 10, 10⟩] ⟨0, 0, 4, 10⟩ 10 10
    (by with_unfolding_all decide) 5 5

/-! ## Claims C3 and C4 -/

/-- Unfolding of one iteration of the pack-verify-retry loop. -/
lemma gpLoop_succ_cons (g : Globals) (allParts : List Part) (fuel : ℕ) (p0 : Part)
    (prest : List Part) (off : ℤ) (acc : List PlacedPart) :
    gpLoop g allParts (fuel + 1) (p0 :: prest) off acc =
      (if (overflowUidsOf g (p0 :: prest) off).length ≠ 0 ∧
          (overflowUidsOf g (p0 :: prest) off).length = (p0 :: prest).length then
        .error (.layoutFailed (firstOverflowPart g allParts (p0 :: prest) off).partType
          (firstOverflowPart g allParts (p0 :: prest) off).w
          (firstOverflowPart g allParts (p0 :: prest) off).h)
      else
        gpLoop g allParts fuel
          ((overflowUidsOf g (p0 :: prest) off).map
            (fun u => (lookupByUid allParts u).getD defaultPart))
          (maxSheetIndex (acc ++ validOf g (p0 :: prest) off) + 1)
          (acc ++ validOf g (p0 :: prest) off)) := rfl

/-- The valid placements and the overflow parts of one iteration repartition
the packing attempt, up to permutation. -/
lemma validOf_overflow_perm (g : Globals) (batch : List Part) (off : ℤ) :
    (validOf g batch off ++ (pack batch g off).filter (overflowsP g)).Perm
      (pack batch g off) :=
  List.Perm.trans List.perm_append_comm (List.filter_append_perm _ _)

/-- Through the retry loop, the uid multiset of the final result is the uid
multiset of the accumulator plus the pending batch — no part is duplicated or
dropped (under the data model's unique part ids). -/
lemma gpLoop_uid_perm (g : Globals) (allParts : List Part) :
    ∀ (fuel : ℕ) (batch : List Part) (off : ℤ) (acc res : List PlacedPart),
      gpLoop g allParts fuel batch off acc = .ok res →
      (batch.map Part.uid).Nodup →
      (∀ u ∈ batch.map Part.uid, u ∈ allParts.map Part.uid) →
      (res.map (fun q => q.part.uid)).Perm
        (acc.map (fun q => q.part.uid) ++ batch.map Part.uid) := by
  intro fuel
  induction fuel with
  | zero =>
    intro batch off acc res h hnd hsub
    cases batch with
    | nil =>
      injection h with h
      subst h
      simp
    | cons p0 prest => cases h
  | succ fuel ih =>
    intro batch off acc res h hnd hsub
    cases batch with
    | nil =>
      injection h with h
      subst h
      simp
    | cons p0 prest =>
      rw [gpLoop_succ_cons] at h
      split at h
      · cases h
      · have hattempt : ((pack (p0 :: prest) g off).map (fun q => q.part.uid)).Perm
            ((p0 :: prest).map Part.uid) := pack_uid_perm _ g off
        have hand : ((pack (p0 :: prest) g off).map (fun q => q.part.uid)).Nodup :=
          hattempt.nodup_iff.2 hnd
        have hfsub : ((((pack (p0 :: prest) g off).filter (overflowsP g)).map
            (fun q => q.part.uid)).Sublist
              ((pack (p0 :: prest) g off).map (fun q => q.part.uid))) :=
          (List.filter_sublist _).map _
        have hfnd : (((pack (p0 :: prest) g off).filter (overflowsP g)).map
            (fun q => q.part.uid)).Nodup := hand.sublist hfsub
        have hded : overflowUidsOf g (p0 :: prest) off =
            ((pack (p0 :: prest) g off).filter (overflowsP g)).map
              (fun q => q.part.uid) := dedupKeepFirst_eq_self _ hfnd
        have humem : ∀ u ∈ overflowUidsOf g (p0 :: prest) off,
            u ∈ allParts.map Part.uid := by
          intro u hu
          rw [hded] at hu
          exact hsub u (hattempt.mem_iff.1 (hfsub.subset hu))
        have hnext : ((overflowUidsOf g (p0 :: prest) off).map
            (fun u => (lookupByUid allParts u).getD defaultPart)).map Part.uid =
              overflowUidsOf g (p0 :: prest) off := by
          rw [List.map_map]
          have hpt : ∀ u ∈ overflowUidsOf g (p0 :: prest) off,
              (Part.uid ∘ fun u => (lookupByUid allParts u).getD defaultPart) u = u := by
            intro u hu
            obtain ⟨p, hp⟩ := lookupByUid_isSome (humem u hu)
            simp only [Function.comp_apply, hp, Option.getD_some]
            exact (lookupByUid_mem hp).2
          calc (overflowUidsOf g (p0 :: prest) off).map
                (Part.uid ∘ fun u => (lookupByUid allParts u).getD defaultPart)
              = (overflowUidsOf g (p0 :: prest) off).map id := List.map_congr_left hpt
            _ = overflowUidsOf g (p0 :: prest) off := List.map_id _
        have hres := ih _ _ _ _ h (by rw [hnext, hded]; exact hfnd)
          (by rw [hnext]; exact humem)
        refine hres.trans ?_
        rw [List.map_append, hnext, List.append_assoc]
        refine List.Perm.append_left _ ?_
        rw [hded]
        have hvo : (((validOf g (p0 :: prest) off).map (fun q => q.part.uid)) ++
            (((pack (p0 :: prest) g off).filter (overflowsP g)).map
              (fun q => q.part.uid))).Perm
            ((pack (p0 :: prest) g off).map (fun q => q.part.uid)) := by
          have hmm := (validOf_overflow_perm g (p0 :: prest) off).map (fun q => q.part.uid)
          rwa [List.map_append] at hmm
        exact hvo.trans hattempt


/-- Six parts per job. -/
lemma mkParts_length (hypotDist : ℚ → ℚ → ℚ) (job : BookJob) (g : Globals) :
    (mkParts hypotDist job g).length = 6 := rfl

/-- The generated part list has six entries per job. -/
lemma allParts_length (hypotDist : ℚ → ℚ → ℚ) (g : Globals) :
    ∀ (jobs : List BookJob),
      (jobs.flatMap (fun job => mkParts hypotDist job g)).length = 6 * jobs.length := by
  intro jobs
  induction jobs with
  | nil => rfl
  | cons j js ihj =>
    rw [List.flatMap_cons, List.length_append, ihj, mkParts_length, List.length_cons]
    ring

/-- C3: under the data model's invariant that part uids are unique, whenever
generatePlacedParts returns normally every generated part appears exactly once
in the result, matched by uid — the multiset of result uids is exactly the
multiset of generated uids — and the result count is six per job. -/
theorem generatePlacedParts_C3 (hypotDist : ℚ → ℚ → ℚ) (fuel : ℕ) (jobs : List BookJob)
    (g : Globals) (res : List PlacedPart)
    (hok : generatePlacedParts hypotDist fuel jobs g = .ok res)
    (hnodup : ((jobs.flatMap (fun job => mkParts hypotDist job g)).map Part.uid).Nodup) :
    (res.map (fun p => p.part.uid)).Perm
      ((jobs.flatMap (fun job => mkParts hypotDist job g)).map Part.uid) ∧
    res.length = 6 * jobs.length := by
  rw [generatePlacedParts] at hok
  rcases hglp : gpLoop g (jobs.flatMap fun job => mkParts hypotDist job g) fuel
      (jobs.flatMap fun job => mkParts hypotDist job g) 0 [] with e | final
  · rw [hglp] at hok
    cases hok
  · rw [hglp] at hok
    injection hok with hok
    subst hok
    have huid : (final.map (fun q => q.part.uid)).Perm
        ((jobs.flatMap fun job => mkParts hypotDist job g).map Part.uid) := by
      have h := gpLoop_uid_perm g _ fuel _ 0 [] final hglp hnodup (fun u hu => hu)
      simpa using h
    have hcoluid : ((final.map (colorize jobs)).map (fun p => p.part.uid)) =
        final.map (fun q => q.part.uid) := by
      rw [List.map_map]
      rfl
    refine ⟨by rw [hcoluid]; exact huid, ?_⟩
    rw [List.length_map, ← allParts_length hypotDist g jobs]
    have := huid.length_eq
    rwa [List.length_map, List.length_map] at this

/-- Witness for generatePlacedParts_C3: the witness run returns normally with
six placed parts for its single job, and its uids are those generated. -/
theorem generatePlacedParts_C3_witness :
    ((generatePlacedParts (fun _ _ => 0) 10 [wJob] wGlobals).toOption.getD []).length =
      6 * [wJob].length := by
  have hok : generatePlacedParts (fun _ _ => 0) 10 [wJob] wGlobals =
      .ok ((generatePlacedParts (fun _ _ => 0) 10 [wJob] wGlobals).toOption.getD []) := by
    with_unfolding_all rfl
  exact (generatePlacedParts_C3 (fun _ _ => 0) 10 [wJob] wGlobals _ hok
    (by with_unfolding_all decide)).2

/-- C4: whenever every part of the pending batch overflows — the packer could
not place it (sentinel -1) or the exact bounds check rejects it — the retry
loop raises the unrecoverable layout failure, whose payload carries the panel
type, width and height of one offending batch part, instead of looping; in
particular a job whose parts exceed the usable sheet in both orientations
makes generatePlacedParts fail with its BASE panel's type and dimensions. -/
theorem generatePlacedParts_C4 :
    (∀ (g : Globals) (allParts : List Part) (fuel : ℕ) (batch : List Part) (off : ℤ)
        (acc : List PlacedPart),
      batch ≠ [] →
      (∀ q ∈ pack batch g off, overflowsP g q = true) →
      (∀ p ∈ batch, lookupByUid allParts p.uid = some p) →
      (batch.map Part.uid).Nodup →
      firstOverflowPart g allParts batch off ∈ batch ∧
      gpLoop g allParts (fuel + 1) batch off acc =
        .error (.layoutFailed (firstOverflowPart g allParts batch off).partType
          (firstOverflowPart g allParts batch off).w
          (firstOverflowPart g allParts batch off).h)) ∧
    generatePlacedParts (fun _ _ => 0) 2 [bigJobC4] smGlobalsC4 =
      .error (.layoutFailed .BASE (221 / 100) (221 / 100)) := by
  constructor
  · intro g allParts fuel batch off acc hne hover hlk hnd
    cases batch with
    | nil => exact absurd rfl hne
    | cons p0 prest =>
      have hattempt : ((pack (p0 :: prest) g off).map (fun q => q.part.uid)).Perm
          ((p0 :: prest).map Part.uid) := pack_uid_perm _ g off
      have hand : ((pack (p0 :: prest) g off).map (fun q => q.part.uid)).Nodup :=
        hattempt.nodup_iff.2 hnd
      have hfilter : (pack (p0 :: prest) g off).filter (overflowsP g) =
          pack (p0 :: prest) g off := List.filter_eq_self.2 hover
      have hded : overflowUidsOf g (p0 :: prest) off =
          (pack (p0 :: prest) g off).map (fun q => q.part.uid) := by
        rw [overflowUidsOf, hfilter]
        exact dedupKeepFirst_eq_self _ hand
      have hlen : (overflowUidsOf g (p0 :: prest) off).length = (p0 :: prest).length := by
        rw [hded, List.length_map]
        have hl := hattempt.length_eq
        rwa [List.length_map, List.length_map] at hl
      have hcond : (overflowUidsOf g (p0 :: prest) off).length ≠ 0 ∧
          (overflowUidsOf g (p0 :: prest) off).length = (p0 :: prest).length := by
        refine ⟨?_, hlen⟩
        rw [hlen]
        simp
      constructor
      · rw [firstOverflowPart]
        have hne2 : overflowUidsOf g (p0 :: prest) off ≠ [] := by
          intro hz
          rw [hz] at hlen
          simp at hlen
        rcases hu : overflowUidsOf g (p0 :: prest) off with _ | ⟨u, us⟩
        · exact absurd hu hne2
        · have humem : u ∈ (p0 :: prest).map Part.uid := by
            have : u ∈ overflowUidsOf g (p0 :: prest) off := by
              rw [hu]
              exact List.mem_cons_self u us
            rw [hded] at this
            exact hattempt.mem_iff.1 this
          rw [List.mem_map] at humem
          obtain ⟨p, hpmem, hpu⟩ := humem
          have hlkp := hlk p hpmem
          rw [hpu] at hlkp
          simp only [List.headD_cons, hlkp, Option.getD_some]
          exact hpmem
      · rw [gpLoop_succ_cons, if_pos hcond]
  · with_unfolding_all rfl

/-- Witness for generatePlacedParts_C4: the concrete oversized batch of
bigJobC4 satisfies the all-overflow hypotheses and the loop fails naming one
of its parts. -/
theorem generatePlacedParts_C4_witness :
    firstOverflowPart smGlobalsC4 (mkParts (fun _ _ => 0) bigJobC4 smGlobalsC4)
        (mkParts (fun _ _ => 0) bigJobC4 smGlobalsC4) 0 ∈
      mkParts (fun _ _ => 0) bigJobC4 smGlobalsC4 ∧
    gpLoop smGlobalsC4 (mkParts (fun _ _ => 0) bigJobC4 smGlobalsC4) (0 + 1)
        (mkParts (fun _ _ => 0) bigJobC4 smGlobalsC4) 0 [] =
      .error (.layoutFailed
        (firstOverflowPart smGlobalsC4 (mkParts (fun _ _ => 0) bigJobC4 smGlobalsC4)
          (mkParts (fun _ _ => 0) bigJobC4 smGlobalsC4) 0).partType
        (firstOverflowPart smGlobalsC4 (mkParts (fun _ _ => 0) bigJobC4 smGlobalsC4)
          (mkParts (fun _ _ => 0) bigJobC4 smGlobalsC4) 0).w
        (firstOverflowPart smGlobalsC4 (mkParts (fun _ _ => 0) bigJobC4 smGlobalsC4)
          (mkParts (fun _ _ => 0) bigJobC4 smGlobalsC4) 0).h) :=
  generatePlacedParts_C4.1 smGlobalsC4 (mkParts (fun _ _ => 0) bigJobC4 smGlobalsC4) 0
    (mkParts (fun _ _ => 0) bigJobC4 smGlobalsC4) 0 []
    (by with_unfolding_all decide)
    (by with_unfolding_all decide)
    (by with_unfolding_all decide)
    (by with_unfolding_all decide)

/-! ## Claim C1 -/

/-- The running-minimum fold bounds the seed and every scanned element. -/
lemma minListO_go :
    ∀ (l : List ℚ) (acc : Option ℚ) (m : ℚ),
      l.foldl (fun acc q => match acc with
        | none => some q
        | some m => some (min m q)) acc = some m →
      (∀ a, acc = some a → m ≤ a) ∧ (∀ x ∈ l, m ≤ x) := by
  intro l
  induction l with
  | nil =>
    intro acc m h
    refine ⟨fun a ha => ?_, by simp⟩
    rw [ha] at h
    injection h with h
    exact le_of_eq h.symm
  | cons q l ih =>
    intro acc m h
    obtain ⟨h1, h2⟩ := ih _ m h
    constructor
    · intro a ha
      subst ha
      exact le_trans (h1 (min a q) rfl) (min_le_left _ _)
    · intro x hx
      rcases List.mem_cons.1 hx with rfl | hx
      · cases acc with
        | none => exact h1 x rfl
        | some a => exact le_trans (h1 (min a x) rfl) (min_le_right _ _)
      · exact h2 x hx

/-- The running-maximum fold dominates the seed and every scanned element. -/
lemma maxListO_go :
    ∀ (l : List ℚ) (acc : Option ℚ) (m : ℚ),
      l.foldl (fun acc q => match acc with
        | none => some q
        | some m => some (max m q)) acc = some m →
      (∀ a, acc = some a → a ≤ m) ∧ (∀ x ∈ l, x ≤ m) := by
  intro l
  induction l with
  | nil =>
    intro acc m h
    refine ⟨fun a ha => ?_, by simp⟩
    rw [ha] at h
    injection h with h
    exact le_of_eq h
  | cons q l ih =>
    intro acc m h
    obtain ⟨h1, h2⟩ := ih _ m h
    constructor
    · intro a ha
      subst ha
      exact le_trans (le_max_left _ _) (h1 (max a q) rfl)
    · intro x hx
      rcases List.mem_cons.1 hx with rfl | hx
      · cases acc with
        | none => exact h1 x rfl
        | some a => exact le_trans (le_max_right _ _) (h1 (max a x) rfl)
      · exact h2 x hx

/-- A some-seeded min/max fold stays some. -/
lemma foldlOption_isSome (op : ℚ → ℚ → ℚ) :
    ∀ (l : List ℚ) (a : ℚ),
      (l.foldl (fun acc q => match acc with
        | none => some q
        | some m => some (op m q)) (some a)).isSome := by
  intro l
  induction l with
  | nil => intro a; rfl
  | cons q l ih => intro a; exact ih (op a q)

/-- On a list with a member, minListO returns a lower bound. -/
lemma minListO_le_of_mem {l : List ℚ} {x : ℚ} (hx : x ∈ l) :
    ∃ m, minListO l = some m ∧ m ≤ x := by
  cases l with
  | nil => cases hx
  | cons a l =>
    have hs := foldlOption_isSome min l a
    rcases ho : l.foldl (fun acc q => match acc with
      | none => some q
      | some m => some (min m q)) (some a) with _ | m
    · rw [ho] at hs; cases hs
    · refine ⟨m, ho, ?_⟩
      obtain ⟨h1, h2⟩ := minListO_go l (some a) m ho
      rcases List.mem_cons.1 hx with rfl | hx
      · exact h1 x rfl
      · exact h2 x hx

/-- On a list with a member, maxListO returns an upper bound. -/
lemma maxListO_ge_of_mem {l : List ℚ} {x : ℚ} (hx : x ∈ l) :
    ∃ m, maxListO l = some m ∧ x ≤ m := by
  cases l with
  | nil => cases hx
  | cons a l =>
    have hs := foldlOption_isSome max l a
    rcases ho : l.foldl (fun acc q => match acc with
      | none => some q
      | some m => some (max m q)) (some a) with _ | m
    · rw [ho] at hs; cases hs
    · refine ⟨m, ho, ?_⟩
      obtain ⟨h1, h2⟩ := maxListO_go l (some a) m ho
      rcases List.mem_cons.1 hx with rfl | hx
      · exact h1 x rfl
      · exact h2 x hx

/-- A successful bounds check constrains every examined sheet-space point. -/
lemma isPartInBounds_pointwise {p : PlacedPart} {g : Globals}
    (hb : isPartInBounds p g = true) :
    ∀ q ∈ (boundPoints p).map (transformPoint p),
      g.margin - EPS ≤ q.x ∧ q.x ≤ g.sheet_w - g.margin + EPS ∧
      g.margin - EPS ≤ q.y ∧ q.y ≤ g.sheet_h - g.margin + EPS := by
  intro q hq
  simp only [isPartInBounds, minListO, maxListO, Bool.and_eq_true] at hb
  obtain ⟨⟨⟨hminx, hmaxx⟩, hminy⟩, hmaxy⟩ := hb
  have hqx : q.x ∈ ((boundPoints p).map (transformPoint p)).map (fun r => r.x) :=
    List.mem_map_of_mem _ hq
  have hqy : q.y ∈ ((boundPoints p).map (transformPoint p)).map (fun r => r.y) :=
    List.mem_map_of_mem _ hq
  obtain ⟨m1, hm1, hle1⟩ := minListO_le_of_mem hqx
  obtain ⟨m2, hm2, hle2⟩ := maxListO_ge_of_mem hqx
  obtain ⟨m3, hm3, hle3⟩ := minListO_le_of_mem hqy
  obtain ⟨m4, hm4, hle4⟩ := maxListO_ge_of_mem hqy
  rw [minListO] at hm1 hm3
  rw [maxListO] at hm2 hm4
  rw [hm1] at hminx
  rw [hm2] at hmaxx
  rw [hm3] at hminy
  rw [hm4] at hmaxy
  simp only [decide_eq_true_eq, ge_iff_le] at hminx hmaxx hminy hmaxy
  exact ⟨le_trans hminx hle1, le_trans hle2 hmaxx, le_trans hminy hle3,
    le_trans hle4 hmaxy⟩

/-- Everything the retry loop accumulates passed the exact bounds check. -/
lemma gpLoop_ok_bounds (g : Globals) (allParts : List Part) :
    ∀ (fuel : ℕ) (parts : List Part) (off : ℤ) (acc res : List PlacedPart),
      gpLoop g allParts fuel parts off acc = .ok res →
      (∀ p ∈ acc, isPartInBounds p g = true) →
      ∀ p ∈ res, isPartInBounds p g = true := by
  intro fuel
  induction fuel with
  | zero =>
    intro parts off acc res h hacc
    cases parts with
    | nil =>
      injection h with h
      subst h
      exact hacc
    | cons p0 prest => cases h
  | succ fuel ih =>
    intro parts off acc res h hacc
    cases parts with
    | nil =>
      injection h with h
      subst h
      exact hacc
    | cons p0 prest =>
      rw [gpLoop] at h
      split at h
      · cases h
      · refine ih _ _ _ _ h ?_
        intro p hp
        rcases List.mem_append.1 hp with hp | hp
        · exact hacc p hp
        · have := (List.mem_filter.1 hp).2
          simp only [overflowsP, Bool.not_eq_true', Bool.or_eq_false_iff,
            Bool.not_eq_false] at this
          simpa using this.2

/-- colorize only touches bookColor and bookIndex, not the bounds data. -/
lemma isPartInBounds_colorize (jobs : List BookJob) (p : PlacedPart) (g : Globals) :
    isPartInBounds (colorize jobs p) g = isPartInBounds p g := rfl

/-- C1: whenever generatePlacedParts returns normally, every placed part of
the result is within bounds: each contour point and each hole corner extremum,
transformed by the placement translation and (if rotated) the 90-degree
rotation, lies within [margin - 1e-6, sheet - margin + 1e-6] on both axes. -/
theorem generatePlacedParts_C1 (hypotDist : ℚ → ℚ → ℚ) (fuel : ℕ)
    (jobs : List BookJob) (g : Globals) (res : List PlacedPart)
    (hok : generatePlacedParts hypotDist fuel jobs g = .ok res) :
    ∀ p ∈ res, ∀ q ∈ (boundPoints p).map (transformPoint p),
      g.margin - EPS ≤ q.x ∧ q.x ≤ g.sheet_w - g.margin + EPS ∧
      g.margin - EPS ≤ q.y ∧ q.y ≤ g.sheet_h - g.margin + EPS := by
  intro p hp
  rw [generatePlacedParts] at hok
  rcases hglp : gpLoop g (jobs.flatMap (fun job => mkParts hypotDist job g)) fuel
      (jobs.flatMap (fun job => mkParts hypotDist job g)) 0 [] with e | final
  · rw [hglp] at hok
    cases hok
  · rw [hglp] at hok
    injection hok with hok
    subst hok
    rw [List.mem_map] at hp
    obtain ⟨p0, hp0, rfl⟩ := hp
    have hb : isPartInBounds p0 g = true :=
      gpLoop_ok_bounds g _ fuel _ 0 [] final hglp (by simp) p0 hp0
    rw [← isPartInBounds_colorize jobs p0 g] at hb
    exact isPartInBounds_pointwise hb

/-- Witness for generatePlacedParts_C1: the single-job witness run returns
normally and the bound applies to its parts. -/
theorem generatePlacedParts_C1_witness :
    ((generatePlacedParts (fun _ _ => 0) 10 [wJob] wGlobals).toOption.getD []).Forall
      (fun p => (((boundPoints p).map (transformPoint p)).Forall (fun q =>
        wGlobals.margin - EPS ≤ q.x ∧ q.x ≤ wGlobals.sheet_w - wGlobals.margin + EPS ∧
        wGlobals.margin - EPS ≤ q.y ∧
          q.y ≤ wGlobals.sheet_h - wGlobals.margin + EPS))) := by
  have hok : generatePlacedParts (fun _ _ => 0) 10 [wJob] wGlobals =
      .ok ((generatePlacedParts (fun _ _ => 0) 10 [wJob] wGlobals).toOption.getD []) := by
    with_unfolding_all rfl
  have h := generatePlacedParts_C1 (fun _ _ => 0) 10 [wJob] wGlobals _ hok
  rw [List.forall_iff_forall_mem]
  intro p hp
  rw [List.forall_iff_forall_mem]
  exact h p hp

/-! ## Claim C5 -/

/-- C5: the chooser admits an orientation in a free rectangle exactly when
both padded dimensions fit within the 1e-6 tolerance (tryFitCand is the
specFitValid gate), scores a valid fit as min(freeW − paddedW, freeH −
paddedH), and returns the lowest-scoring valid candidate over the evaluation
order — free-rectangle index ascending and, within one rectangle, the
unrotated orientation before the rotated one — breaking ties in favor of the
earliest candidate. -/
theorem chooseMaxRectsPosition_C5 (part : Part) (free : List FreeRect) (ar : Bool)
    (gap : ℚ) :
    (∀ (i : ℕ) (fr : FreeRect) (pw ph : ℚ) (rot : Bool),
      tryFitCand gap i fr pw ph rot =
        if specFitValid gap fr pw ph then
          some ⟨specScore gap fr pw ph, rot, fr.x, fr.y, pw, ph, i⟩
        else none) ∧
    chooseMaxRectsPosition part free ar gap = selectBest none (candList part free ar gap) ∧
    (chooseMaxRectsPosition part free ar gap = none ↔ candList part free ar gap = []) ∧
    (∀ c, chooseMaxRectsPosition part free ar gap = some c →
      ∃ l1 l2, candList part free ar gap = l1 ++ c :: l2 ∧
        (∀ c' ∈ l1, c.score < c'.score) ∧ (∀ c' ∈ l2, c.score ≤ c'.score)) := by
  refine ⟨fun i fr pw ph rot => rfl, choose_eq_selectBest part free ar gap, ?_, ?_⟩
  · rw [choose_eq_selectBest]
    exact selectBest_none_iff _
  · intro c hc
    rw [choose_eq_selectBest] at hc
    rcases selectBest_spec _ none c hc with ⟨ha, _⟩ | ⟨l1, l2, hdec, h1, h2, _⟩
    · cases ha
    · exact ⟨l1, l2, hdec, h1, fun c' hc' => not_lt.1 (h2 c' hc')⟩

/-- Witness for chooseMaxRectsPosition_C5 at a concrete input: one part, two
free rectangles, rotation on. -/
theorem chooseMaxRectsPosition_C5_witness :
    chooseMaxRectsPosition (mkTestPart "w" 3 2) [⟨0, 0, 10, 4⟩, ⟨0, 4, 5, 5⟩] true 0 =
      selectBest none (candList (mkTestPart "w" 3 2) [⟨0, 0, 10, 4⟩, ⟨0, 4, 5, 5⟩] true 0) :=
  (chooseMaxRectsPosition_C5 (mkTestPart "w" 3 2) [⟨0, 0, 10, 4⟩, ⟨0, 4, 5, 5⟩] true 0).2.1

/-! ## Claim C6 -/

/-- C6 counterexample: on a toothed edge of length 0.1 with t = 0.1,
tab_w_rule = 0.5 and symmetric_ends = false, the nominal count rounds to 0
and the code's minimum clamp produces n = 1, which is odd; the claim demands
an even count whenever symmetric_ends is false. -/
theorem segmentCount_C6_counterexample :
    (0 : ℚ) < 1 / 10 ∧ segmentCount (1 / 10) (1 / 10) (1 / 2) false = 1 ∧
      ¬ Even (segmentCount (1 / 10) (1 / 10) (1 / 2) false) := by
  refine ⟨by norm_num, by with_unfolding_all decide, ?_⟩
  rw [Int.even_iff]
  with_unfolding_all decide

/-- C6 (amended): for a toothed edge of length L > 0 the segment count is the
nominal count round(L / max(4t, tab_w_rule)) bumped for parity —
symmetric_ends = true forces the count odd (an even nominal count is bumped to
the next odd value) and symmetric_ends = false forces it even — except that a
nominal count of 0 is clamped to n = 1 (odd) even when symmetric_ends is
false; the edge-path builder then uses the actual tab width L / n. -/
theorem segmentCount_C6 (L t rule : ℚ) (sym : Bool)
    (hL : 0 < L) (hnom : 0 < L / max (4 * t) rule) :
    (sym = true →
      Odd (segmentCount L t rule sym) ∧
      segmentCount L t rule sym =
        (if 2 ∣ jsRound (L / max (4 * t) rule) then jsRound (L / max (4 * t) rule) + 1
         else jsRound (L / max (4 * t) rule))) ∧
    (sym = false →
      (jsRound (L / max (4 * t) rule) = 0 → segmentCount L t rule sym = 1) ∧
      (jsRound (L / max (4 * t) rule) ≠ 0 →
        Even (segmentCount L t rule sym) ∧
        segmentCount L t rule sym =
          (if 2 ∣ jsRound (L / max (4 * t) rule) then jsRound (L / max (4 * t) rule)
           else jsRound (L / max (4 * t) rule) + 1))) ∧
    (∀ (g : Globals) (job : BookJob) (ep : EdgeParams) (pads : Option (List Rect))
        (ax : Axis) (dir : ℚ) (nrm cp : Point),
      ep.teeth = true →
      (addEdgePath g job ep pads ax dir nrm cp L).1 =
        ⟨cp.x, cp.y, nrm.x, nrm.y⟩ ::
          ((List.range (segmentCount L g.t job.tab_w_rule job.symmetric_ends).toNat).map
            (edgeSegment cp ax dir nrm
              (L / ((segmentCount L g.t job.tab_w_rule job.symmetric_ends : ℤ) : ℚ)) L
              (g.kerf / 2 + job.joint_clear) g.t ep.role ep.reserveStrip pads)).flatMap
            (fun s => s.1)) := by
  have h0 : 0 ≤ jsRound (L / max (4 * t) rule) := jsRound_nonneg hnom
  set n0 := jsRound (L / max (4 * t) rule) with hn0
  have htm : Int.tmod n0 2 = n0 % 2 := Int.tmod_eq_emod (by omega) (by omega)
  refine ⟨?_, ?_, ?_⟩
  · intro hsym
    by_cases hpar : n0 % 2 = 0
    · have hdvd : 2 ∣ n0 := Int.dvd_of_emod_eq_zero hpar
      have hval : segmentCount L t rule sym = n0 + 1 := by
        simp only [segmentCount, hsym, ← hn0, htm]
        split_ifs <;> omega
      rw [hval, if_pos hdvd, Int.odd_iff]
      exact ⟨by omega, rfl⟩
    · have hdvd : ¬ 2 ∣ n0 := by omega
      have hval : segmentCount L t rule sym = n0 := by
        simp only [segmentCount, hsym, ← hn0, htm]
        split_ifs <;> omega
      rw [hval, if_neg hdvd, Int.odd_iff]
      exact ⟨by omega, rfl⟩
  · intro hsym
    constructor
    · intro hz
      simp only [segmentCount, hsym, ← hn0, htm, hz]
      decide
    · intro hnz
      by_cases hpar : n0 % 2 = 0
      · have hdvd : 2 ∣ n0 := Int.dvd_of_emod_eq_zero hpar
        have hval : segmentCount L t rule sym = n0 := by
          simp only [segmentCount, hsym, ← hn0, htm, Bool.false_eq_true, if_false]
          split_ifs <;> omega
        rw [hval, if_pos hdvd, Int.even_iff]
        exact ⟨hpar, rfl⟩
      · have hdvd : ¬ 2 ∣ n0 := by omega
        have hval : segmentCount L t rule sym = n0 + 1 := by
          simp only [segmentCount, hsym, ← hn0, htm, Bool.false_eq_true, if_false]
          split_ifs <;> omega
        rw [hval, if_neg hdvd, Int.even_iff]
        exact ⟨by omega, rfl⟩
  · intro g job ep pads ax dir nrm cp hteeth
    simp only [addEdgePath, hteeth]
    rfl

/-- Witness for segmentCount_C6: scenario D of the specification, an edge of
length 6 with symmetric ends whose nominal count 12 is even, bumped to 13. -/
theorem segmentCount_C6_witness :
    Odd (segmentCount 6 (1 / 10) (1 / 2) true) ∧
      segmentCount 6 (1 / 10) (1 / 2) true = 13 := by
  have h := (segmentCount_C6 6 (1 / 10) (1 / 2) true (by norm_num) (by norm_num)).1 rfl
  refine ⟨h.1, ?_⟩
  rw [h.2]
  with_unfolding_all decide

/-! ## Claim C7 -/

/-- C7 counterexample: a hole near a corner violates the edge minimum along
both axes, but the enforcer pushes it only along the axis with the smaller
margin.  With t = 0.1 (edge minimum 0.3), panel 10 × 10, no valleys and the
hole (0.1, 0.2, r = 0.05), the result (0.351, 0.2, 0.05) still has
edge distance minus radius 0.15 < 0.3.  The valley-distance function is never
consulted because the valley list is empty. -/
theorem enforceHoleClearances_C7_counterexample :
    enforceHoleClearances (fun _ _ => 0) ⟨1 / 10, 2 / 10, 1 / 20⟩ 10 10 [] (1 / 10) =
      ⟨351 / 1000, 1 / 5, 1 / 20⟩ ∧
    min (min (351 / 1000 : ℚ) (10 - 351 / 1000)) (min (1 / 5 : ℚ) (10 - 1 / 5)) - 1 / 20 <
      max (3 * (1 / 10)) (3 / 10) := by
  constructor
  · with_unfolding_all decide
  · with_unfolding_all decide

/-- C7 (amended): the enforcer is a single-pass local heuristic, so the
stated minimums are not guaranteed in general (see the counterexample); what
holds is that a hole already meeting both clearance minimums — edge distance
minus radius at least max(3t, 0.3) and, for every valley point, distance
minus radius at least max(2t, 0.25) — is returned unchanged, so the returned
hole still meets both minimums. -/
theorem enforceHoleClearances_C7 (hypotDist : ℚ → ℚ → ℚ) (hole : Hole)
    (panelW panelH t : ℚ) (valleys : List Point)
    (hedge : max (3 * t) (3 / 10) ≤
      min (min hole.cx (panelW - hole.cx)) (min hole.cy (panelH - hole.cy)) - hole.r)
    (hvalley : ∀ v ∈ valleys,
      max (2 * t) (1 / 4) ≤ hypotDist (hole.cx - v.x) (hole.cy - v.y) - hole.r) :
    enforceHoleClearances hypotDist hole panelW panelH valleys t = hole := by
  have hem : (3 / 10 : ℚ) ≤ max (3 * t) (3 / 10) := le_max_right _ _
  have hM1 : min (min hole.cx (panelW - hole.cx)) (min hole.cy (panelH - hole.cy)) ≤
      hole.cx := le_trans (min_le_left _ _) (min_le_left _ _)
  have hM2 : min (min hole.cx (panelW - hole.cx)) (min hole.cy (panelH - hole.cy)) ≤
      panelW - hole.cx := le_trans (min_le_left _ _) (min_le_right _ _)
  have hM3 : min (min hole.cx (panelW - hole.cx)) (min hole.cy (panelH - hole.cy)) ≤
      hole.cy := le_trans (min_le_right _ _) (min_le_left _ _)
  have hM4 : min (min hole.cx (panelW - hole.cx)) (min hole.cy (panelH - hole.cy)) ≤
      panelH - hole.cy := le_trans (min_le_right _ _) (min_le_right _ _)
  have hcxW : hole.cx ≤ panelW - hole.r := by linarith
  have hcxr : hole.r ≤ hole.cx := by linarith
  have hcyH : hole.cy ≤ panelH - hole.r := by linarith
  have hcyr : hole.r ≤ hole.cy := by linarith
  have hnotlt : ¬ (min (min hole.cx (panelW - hole.cx)) (min hole.cy (panelH - hole.cy))
      - hole.r < max (3 * t) (3 / 10)) := not_lt.mpr hedge
  simp only [enforceHoleClearances]
  rw [if_neg (fun hc => hnotlt hc.1), if_neg (fun hc => hnotlt hc.1)]
  rcases hfv : valleys.foldl (fun acc v =>
      let d := hypotDist (hole.cx - v.x) (hole.cy - v.y)
      match acc with
      | none => some (d, v)
      | some mb => if d < mb.1 then some (d, v) else some mb) none with _ | mb
  · simp only [hfv]
    rw [min_eq_right hcxW, max_eq_right hcxr, min_eq_right hcyH, max_eq_right hcyr]
  · have hmb : max (2 * t) (1 / 4) + hole.r ≤ mb.1 := by
      refine nearestFold_prop (P := fun mb => max (2 * t) (1 / 4) + hole.r ≤ mb.1)
        (fun v => hypotDist (hole.cx - v.x) (hole.cy - v.y)) valleys none
        (fun mb h => by cases h) ?_ mb hfv
      intro v hv
      have := hvalley v hv
      simp only
      linarith
    simp only [hfv]
    rw [if_neg (by linarith)]
    rw [min_eq_right hcxW, max_eq_right hcxr, min_eq_right hcyH, max_eq_right hcyr]

/-- Witness for enforceHoleClearances_C7: a central hole already meeting both
minimums passes through unchanged. -/
theorem enforceHoleClearances_C7_witness :
    enforceHoleClearances (fun _ _ => 1000) ⟨5, 5, 1 / 20⟩ 10 10 [] (1 / 10) =
      ⟨5, 5, 1 / 20⟩ :=
  enforceHoleClearances_C7 (fun _ _ => 1000) ⟨5, 5, 1 / 20⟩ 10 10 (1 / 10) []
    (by with_unfolding_all decide) (by simp)


/-! ## Claim C8 -/

/-- C8: the BASE part's hole list is its relief holes followed by the
clearance-enforced magnet holes; a job with mag_count = 4 contributes exactly
4 magnet holes, one with mag_count = 2 exactly 2, one with mag_count = 0
none, and every magnet hole's radius is (mag_diam + mag_clear + kerf) / 2
(the enforcer moves only centers).  Holds for every distance function passed
to the enforcer. -/
theorem mkParts_C8 (hypotDist : ℚ → ℚ → ℚ) (job : BookJob) (g : Globals) :
    ∃ mag : List Hole,
      ((mkParts hypotDist job g).headD defaultPart).partType = .BASE ∧
      ((mkParts hypotDist job g).headD defaultPart).holes =
        (makeFingerJointedPanel (job.W_ext - 2 * job.clear_side)
          (job.D_ext - 2 * job.clear_depth)
          ⟨⟨true, none, .female⟩, ⟨true, none, .female⟩, ⟨true, none, .female⟩,
           ⟨true, none, .female⟩⟩ {} g job).holes ++ mag ∧
      (∀ hl ∈ mag, hl.r = (job.mag_diam + job.mag_clear + g.kerf) / 2) ∧
      (job.mag_count = 4 → mag.length = 4) ∧
      (job.mag_count = 2 → mag.length = 2) ∧
      (job.mag_count = 0 → mag = []) := by
  refine ⟨_, rfl, rfl, ?_, ?_, ?_, ?_⟩
  · intro hl hmem
    rw [List.mem_map] at hmem
    obtain ⟨h0, h0mem, rfl⟩ := hmem
    rw [enforceHoleClearances_r]
    rcases List.mem_append.1 h0mem with h | h
    · split_ifs at h
      · simp only [List.mem_cons, List.not_mem_nil, or_false] at h
        rcases h with rfl | rfl <;> rfl
      · exact absurd h (List.not_mem_nil _)
    · split_ifs at h
      · simp only [List.mem_cons, List.not_mem_nil, or_false] at h
        rcases h with rfl | rfl <;> rfl
      · exact absurd h (List.not_mem_nil _)
  · intro hmc
    rw [List.length_map, List.length_append, hmc]
    rw [if_pos (by norm_num : (4 : ℚ) ≥ 2), if_pos rfl]
    rfl
  · intro hmc
    rw [List.length_map, List.length_append, hmc]
    rw [if_pos (by norm_num : (2 : ℚ) ≥ 2), if_neg (by norm_num : ¬ (2 : ℚ) = 4)]
    rfl
  · intro hmc
    rw [hmc]
    rw [if_neg (by norm_num : ¬ (0 : ℚ) ≥ 2), if_neg (by norm_num : ¬ (0 : ℚ) = 4)]
    rfl

/-- Witness for mkParts_C8: scenario C — with mag_count = 4 the base panel of
the witness job carries exactly 4 holes, all of magnet radius (it has no
relief holes: its all-female edges at a single segment per edge produce no
notches). -/
theorem mkParts_C8_witness :
    ((mkParts (fun _ _ => 0) magJobC8 wGlobals).headD defaultPart).holes.length = 4 ∧
    ((mkParts (fun _ _ => 0) magJobC8 wGlobals).headD defaultPart).holes.Forall
      (fun hl => hl.r = (magJobC8.mag_diam + magJobC8.mag_clear + wGlobals.kerf) / 2) := by
  obtain ⟨mag, hbase, hholes, hr, h4, h2, h0⟩ := mkParts_C8 (fun _ _ => 0) magJobC8 wGlobals
  have hrelief : (makeFingerJointedPanel (magJobC8.W_ext - 2 * magJobC8.clear_side)
      (magJobC8.D_ext - 2 * magJobC8.clear_depth)
      ⟨⟨true, none, .female⟩, ⟨true, none, .female⟩, ⟨true, none, .female⟩,
       ⟨true, none, .female⟩⟩ {} wGlobals magJobC8).holes = [] := by
    with_unfolding_all decide
  rw [hholes, hrelief, List.nil_append]
  refine ⟨h4 rfl, ?_⟩
  rw [List.forall_iff_forall_mem]
  exact hr

/-! ## Claim C10 -/

/-- C10: for a hole of radius at most half each panel dimension, the enforcer
keeps the radius and its final clamp always lands the center inside
[r, panelW - r] × [r, panelH - r], however far the edge and valley
corrections pushed it; this holds for every distance function, in particular
the Euclidean one. -/
theorem enforceHoleClearances_C10 (hypotDist : ℚ → ℚ → ℚ) (hole : Hole)
    (panelW panelH : ℚ) (valleys : List Point) (t : ℚ)
    (hw : hole.r ≤ panelW / 2) (hh : hole.r ≤ panelH / 2) :
    (enforceHoleClearances hypotDist hole panelW panelH valleys t).r = hole.r ∧
    hole.r ≤ (enforceHoleClearances hypotDist hole panelW panelH valleys t).cx ∧
    (enforceHoleClearances hypotDist hole panelW panelH valleys t).cx ≤ panelW - hole.r ∧
    hole.r ≤ (enforceHoleClearances hypotDist hole panelW panelH valleys t).cy ∧
    (enforceHoleClearances hypotDist hole panelW panelH valleys t).cy ≤ panelH - hole.r := by
  obtain ⟨c1, c2, h⟩ := enforceHoleClearances_shape hypotDist hole panelW panelH valleys t
  rw [h]
  refine ⟨rfl, le_max_left _ _, ?_, le_max_left _ _, ?_⟩
  · exact max_le (by linarith) (min_le_left _ _)
  · exact max_le (by linarith) (min_le_left _ _)

/-- Witness for enforceHoleClearances_C10 at a concrete input. -/
theorem enforceHoleClearances_C10_witness :
    (1 / 20 : ℚ) ≤ 10 / 2 ∧
    (enforceHoleClearances (fun _ _ => 0) ⟨12, -3, 1 / 20⟩ 10 10 [⟨1, 1⟩] (1 / 10)).r
      = 1 / 20 ∧
    (1 / 20 : ℚ) ≤
      (enforceHoleClearances (fun _ _ => 0) ⟨12, -3, 1 / 20⟩ 10 10 [⟨1, 1⟩] (1 / 10)).cx ∧
    (enforceHoleClearances (fun _ _ => 0) ⟨12, -3, 1 / 20⟩ 10 10 [⟨1, 1⟩] (1 / 10)).cx
      ≤ 10 - 1 / 20 := by
  have h := enforceHoleClearances_C10 (fun _ _ => 0) ⟨12, -3, 1 / 20⟩ 10 10 [⟨1, 1⟩]
    (1 / 10) (by norm_num) (by norm_num)
  exact ⟨by norm_num, h.1, h.2.1, h.2.2.1⟩

end SvgBox
